import Mathlib

set_option maxRecDepth 10000

namespace Foundry

/-!
Shallow embedding of the foundry artifact registry (Go).

Bytes are `Nat` values below 256; byte streams are `List Nat`; 32-bit
machine words are `Nat` values kept below `2^32` by explicit masking.
-/

/-! ### SHA-256 core (models Go `crypto/sha256`, FIPS 180-4) -/

def w32 : Nat := 4294967296

def add32 (a b : Nat) : Nat := (a + b) % w32

/-- Right rotation of a 32-bit word. -/
def rotr (n x : Nat) : Nat := (x >>> n) ||| ((x <<< (32 - n)) % w32)

def ch (x y z : Nat) : Nat := (x &&& y) ^^^ ((x ^^^ (w32 - 1)) &&& z)

def maj (x y z : Nat) : Nat := (x &&& y) ^^^ (x &&& z) ^^^ (y &&& z)

def bigSigma0 (x : Nat) : Nat := rotr 2 x ^^^ rotr 13 x ^^^ rotr 22 x

def bigSigma1 (x : Nat) : Nat := rotr 6 x ^^^ rotr 11 x ^^^ rotr 25 x

def smallSigma0 (x : Nat) : Nat := rotr 7 x ^^^ rotr 18 x ^^^ (x >>> 3)

def smallSigma1 (x : Nat) : Nat := rotr 17 x ^^^ rotr 19 x ^^^ (x >>> 10)

/-- SHA-256 round constants (`_K` in Go `crypto/sha256`). -/
def K : List Nat :=
  [1116352408, 1899447441, 3049323471, 3921009573,
   961987163, 1508970993, 2453635748, 2870763221,
   3624381080, 310598401, 607225278, 1426881987,
   1925078388, 2162078206, 2614888103, 3248222580,
   3835390401, 4022224774, 264347078, 604807628,
   770255983, 1249150122, 1555081692, 1996064986,
   2554220882, 2821834349, 2952996808, 3210313671,
   3336571891, 3584528711, 113926993, 338241895,
   666307205, 773529912, 1294757372, 1396182291,
   1695183700, 1986661051, 2177026350, 2456956037,
   2730485921, 2820302411, 3259730800, 3345764771,
   3516065817, 3600352804, 4094571909, 275423344,
   430227734, 506948616, 659060556, 883997877,
   958139571, 1322822218, 1537002063, 1747873779,
   1955562222, 2024104815, 2227730452, 2361852424,
   2428436474, 2756734187, 3204031479, 3329325298]

/-- The eight 32-bit state words of a SHA-256 digest in progress. -/
structure Hash8 where
  h0 : Nat
  h1 : Nat
  h2 : Nat
  h3 : Nat
  h4 : Nat
  h5 : Nat
  h6 : Nat
  h7 : Nat
deriving Repr, DecidableEq

/-- SHA-256 initial state (`init` in Go `crypto/sha256`). -/
def initH : Hash8 :=
  ⟨1779033703, 3144134277, 1013904242, 2773480762,
   1359893119, 2600822924, 528734635, 1541459225⟩

/-- Big-endian 32-bit words from a byte list (trailing incomplete group dropped;
blocks are always exactly 64 bytes so nothing is dropped in practice). -/
def toWords : List Nat → List Nat
  | b0 :: b1 :: b2 :: b3 :: rest =>
      ((b0 <<< 24) ||| (b1 <<< 16) ||| (b2 <<< 8) ||| b3) :: toWords rest
  | _ => []

/-- Message-schedule extension: prepend `n` more words to the reversed
schedule `acc` (so index 1 is w[i-2], 6 is w[i-7], 14 is w[i-15], 15 is w[i-16]). -/
def extendW : Nat → List Nat → List Nat
  | 0, acc => acc
  | n + 1, acc =>
      let nw := (smallSigma1 (acc.getD 1 0) + acc.getD 6 0 +
                 smallSigma0 (acc.getD 14 0) + acc.getD 15 0) % w32
      extendW n (nw :: acc)

/-- The 64-word message schedule of one 64-byte block. -/
def schedule (block : List Nat) : List Nat :=
  (extendW 48 (toWords block).reverse).reverse

/-- One SHA-256 round: rotate the working variables. -/
def roundStep (s : Hash8) (kw : Nat × Nat) : Hash8 :=
  let t1 := (s.h7 + bigSigma1 s.h4 + ch s.h4 s.h5 s.h6 + kw.1 + kw.2) % w32
  let t2 := (bigSigma0 s.h0 + maj s.h0 s.h1 s.h2) % w32
  ⟨(t1 + t2) % w32, s.h0, s.h1, s.h2, (s.h3 + t1) % w32, s.h4, s.h5, s.h6⟩

/-- Compression function over one 64-byte block. -/
def compress (h : Hash8) (block : List Nat) : Hash8 :=
  let s := (List.zip K (schedule block)).foldl roundStep h
  ⟨add32 h.h0 s.h0, add32 h.h1 s.h1, add32 h.h2 s.h2, add32 h.h3 s.h3,
   add32 h.h4 s.h4, add32 h.h5 s.h5, add32 h.h6 s.h6, add32 h.h7 s.h7⟩

/-- `n` big-endian bytes of `v`. -/
def beBytes : Nat → Nat → List Nat
  | 0, _ => []
  | n + 1, v => beBytes n (v >>> 8) ++ [v % 256]

/-- Number of zero bytes inserted so that length ≡ 56 (mod 64) after the 0x80 byte. -/
def padZeroCount (len : Nat) : Nat := (119 - len % 64) % 64

/-- Merkle–Damgård padding: 0x80, zeros, and the 64-bit big-endian bit length. -/
def padSuffix (len : Nat) : List Nat :=
  0x80 :: List.replicate (padZeroCount len) 0 ++ beBytes 8 (8 * len)

def pad (msg : List Nat) : List Nat := msg ++ padSuffix msg.length

/-- Split a byte list into 64-byte blocks (structural recursion on fuel so that
the definition reduces in the kernel; `fuel = l.length` always suffices). -/
def toBlocksF : Nat → List Nat → List (List Nat)
  | 0, _ => []
  | _, [] => []
  | fuel + 1, x :: xs => ((x :: xs).take 64) :: toBlocksF fuel ((x :: xs).drop 64)

/-- Split a byte list into 64-byte blocks. -/
def toBlocks (l : List Nat) : List (List Nat) := toBlocksF l.length l

/-- SHA-256 state words of a whole message. -/
def sha256Words (msg : List Nat) : Hash8 :=
  (toBlocks (pad msg)).foldl compress initH

def hexDigit (n : Nat) : Char :=
  if n < 10 then Char.ofNat (48 + n) else Char.ofNat (87 + n)

/-- Lowercase hex of one 32-bit word, most significant nibble first. -/
def wordHex (v : Nat) : List Char :=
  [hexDigit ((v >>> 28) % 16), hexDigit ((v >>> 24) % 16), hexDigit ((v >>> 20) % 16),
   hexDigit ((v >>> 16) % 16), hexDigit ((v >>> 12) % 16), hexDigit ((v >>> 8) % 16),
   hexDigit ((v >>> 4) % 16), hexDigit (v % 16)]

/-- Lowercase hex of the eight state words (`hex.EncodeToString(h.Sum(nil))`). -/
def hexOfHash8 (s : Hash8) : String :=
  String.mk (wordHex s.h0 ++ wordHex s.h1 ++ wordHex s.h2 ++ wordHex s.h3 ++
             wordHex s.h4 ++ wordHex s.h5 ++ wordHex s.h6 ++ wordHex s.h7)

/-- Lowercase hex SHA-256 digest of a byte list. -/
def sha256Hex (msg : List Nat) : String := hexOfHash8 (sha256Words msg)

/-! ### Incremental hasher

Models the Go `crypto/sha256` digest object wrapped by `hashingWriter`
(part_005): buffered unprocessed bytes, compressed state, total length. -/

/-- Compress every complete 64-byte block of `l`, returning the new state and
the trailing incomplete remainder (fuel-based; `fuel = l.length` suffices). -/
def processFullF : Nat → Hash8 → List Nat → Hash8 × List Nat
  | 0, h, l => (h, l)
  | fuel + 1, h, l =>
      if 64 ≤ l.length then processFullF fuel (compress h (l.take 64)) (l.drop 64)
      else (h, l)

def processFull (h : Hash8) (l : List Nat) : Hash8 × List Nat :=
  processFullF l.length h l

/-- The `hashingWriter` state: digest words, buffered bytes, total bytes written. -/
structure HashingWriter where
  hw : Hash8
  buf : List Nat
  total : Nat
deriving Repr, DecidableEq

def HashingWriter.init : HashingWriter := ⟨initH, [], 0⟩

/-- `hashingWriter.Write(p)`: in this pure model the underlying file write
accepts all of `p`, so the digest absorbs all of it (`h.Write(p[:n])` with
`n = len(p)`): complete blocks are compressed, the remainder is buffered. -/
def HashingWriter.write (s : HashingWriter) (p : List Nat) : HashingWriter :=
  let r := processFull s.hw (s.buf ++ p)
  ⟨r.1, r.2, s.total + p.length⟩

/-- `io.Copy` through the hashing writer: feed the source chunks in order. -/
def HashingWriter.writeAll (s : HashingWriter) (chunks : List (List Nat)) : HashingWriter :=
  chunks.foldl HashingWriter.write s

/-- `hashingWriter.Hash()`: pad out the buffered tail with `0x80`, zeros and the
big-endian bit length of everything written, then hex-encode the state. -/
def HashingWriter.hashHex (s : HashingWriter) : String :=
  hexOfHash8 (processFull s.hw (s.buf ++ padSuffix s.total)).1

/-! ### Streaming lemmas: the one-pass hash equals the digest of the whole stream -/

theorem beBytes_length (n : Nat) : ∀ v, (beBytes n v).length = n := by
  induction n with
  | zero => intro v; rfl
  | succ n ih => intro v; simp [beBytes, ih]

theorem toBlocksF_nil (fuel : Nat) : toBlocksF fuel [] = [] := by
  cases fuel <;> rfl

theorem toBlocksF_congr :
    ∀ fuel₁ fuel₂ : Nat, ∀ l : List Nat, l.length ≤ fuel₁ → l.length ≤ fuel₂ →
      toBlocksF fuel₁ l = toBlocksF fuel₂ l := by
  intro fuel₁
  induction fuel₁ with
  | zero =>
      intro fuel₂ l h₁ _
      have : l = [] := List.eq_nil_of_length_eq_zero (Nat.le_zero.mp h₁)
      subst this
      rw [toBlocksF_nil, toBlocksF_nil]
  | succ fuel ih =>
      intro fuel₂ l h₁ h₂
      cases l with
      | nil => rw [toBlocksF_nil, toBlocksF_nil]
      | cons x xs =>
          cases fuel₂ with
          | zero => exact absurd h₂ (by simp)
          | succ fuel₂ =>
              show _ :: toBlocksF fuel _ = _ :: toBlocksF fuel₂ _
              have hlen : ((x :: xs).drop 64).length ≤ fuel := by
                simp only [List.length_drop, List.length_cons]
                simp only [List.length_cons] at h₁
                omega
              have hlen₂ : ((x :: xs).drop 64).length ≤ fuel₂ := by
                simp only [List.length_drop, List.length_cons]
                simp only [List.length_cons] at h₂
                omega
              rw [ih fuel₂ _ hlen hlen₂]

theorem toBlocks_nil : toBlocks [] = [] := rfl

theorem toBlocks_cons (x : Nat) (xs : List Nat) :
    toBlocks (x :: xs) = ((x :: xs).take 64) :: toBlocks ((x :: xs).drop 64) := by
  show toBlocksF (xs.length + 1) (x :: xs) = _
  show _ :: toBlocksF xs.length ((x :: xs).drop 64) = _
  rw [toBlocksF_congr xs.length ((x :: xs).drop 64).length _
        (by simp only [List.length_drop, List.length_cons]; omega) (le_refl _)]
  rfl

theorem toBlocks_step (l : List Nat) (h : l ≠ []) :
    toBlocks l = (l.take 64) :: toBlocks (l.drop 64) := by
  cases l with
  | nil => exact absurd rfl h
  | cons x xs => exact toBlocks_cons x xs

theorem toBlocks_single (l : List Nat) (h : l.length = 64) : toBlocks l = [l] := by
  have hne : l ≠ [] := by intro hn; subst hn; simp at h
  rw [toBlocks_step l hne, List.take_of_length_le (by omega),
      List.drop_eq_nil_of_le (by omega), toBlocks_nil]

theorem toBlocks_append :
    ∀ n : Nat, ∀ q t : List Nat, q.length = 64 * n →
      toBlocks (q ++ t) = toBlocks q ++ toBlocks t := by
  intro n
  induction n with
  | zero =>
      intro q t hq
      have : q = [] := List.eq_nil_of_length_eq_zero (by omega)
      subst this
      simp [toBlocks_nil]
  | succ n ih =>
      intro q t hq
      have hq64 : 64 ≤ q.length := by omega
      have hqne : q ≠ [] := by
        intro hn; subst hn; simp at hq
      have hqtne : q ++ t ≠ [] := by
        intro hn
        exact hqne (List.append_eq_nil.mp hn).1
      have htake : (q ++ t).take 64 = q.take 64 := by
        rw [List.take_append_eq_append_take, Nat.sub_eq_zero_of_le hq64,
            List.take_zero, List.append_nil]
      have hdrop : (q ++ t).drop 64 = q.drop 64 ++ t := by
        rw [List.drop_append_eq_append_drop, Nat.sub_eq_zero_of_le hq64, List.drop_zero]
      have hlen : (q.drop 64).length = 64 * n := by
        simp only [List.length_drop]; omega
      rw [toBlocks_step _ hqtne, htake, hdrop, ih _ t hlen,
          toBlocks_step q hqne]
      rfl

theorem processFullF_congr :
    ∀ fuel₁ fuel₂ : Nat, ∀ h : Hash8, ∀ l : List Nat,
      l.length ≤ fuel₁ → l.length ≤ fuel₂ →
      processFullF fuel₁ h l = processFullF fuel₂ h l := by
  intro fuel₁
  induction fuel₁ with
  | zero =>
      intro fuel₂ h l h₁ _
      have : l = [] := List.eq_nil_of_length_eq_zero (Nat.le_zero.mp h₁)
      subst this
      cases fuel₂ with
      | zero => rfl
      | succ fuel₂ => simp [processFullF]
  | succ fuel ih =>
      intro fuel₂ h l h₁ h₂
      cases fuel₂ with
      | zero =>
          have : l = [] := List.eq_nil_of_length_eq_zero (Nat.le_zero.mp h₂)
          subst this
          simp [processFullF]
      | succ fuel₂ =>
          simp only [processFullF]
          by_cases h64 : 64 ≤ l.length
          · simp only [if_pos h64]
            exact ih fuel₂ _ _ (by simp only [List.length_drop]; omega)
              (by simp only [List.length_drop]; omega)
          · simp only [if_neg h64]

theorem processFullF_spec :
    ∀ fuel : Nat, ∀ h : Hash8, ∀ l : List Nat, l.length ≤ fuel →
      ∃ q : List Nat,
        l = q ++ (processFullF fuel h l).2 ∧ q.length % 64 = 0 ∧
        (processFullF fuel h l).1 = (toBlocks q).foldl compress h ∧
        (processFullF fuel h l).2.length < 64 := by
  intro fuel
  induction fuel with
  | zero =>
      intro h l h₁
      have : l = [] := List.eq_nil_of_length_eq_zero (Nat.le_zero.mp h₁)
      subst this
      exact ⟨[], by simp [processFullF, toBlocks_nil]⟩
  | succ fuel ih =>
      intro h l h₁
      simp only [processFullF]
      by_cases h64 : 64 ≤ l.length
      · simp only [if_pos h64]
        obtain ⟨q, heq, hmod, hst, hrest⟩ :=
          ih (compress h (l.take 64)) (l.drop 64) (by simp only [List.length_drop]; omega)
        generalize hgen : processFullF fuel (compress h (l.take 64)) (l.drop 64) = pr
          at heq hst hrest ⊢
        refine ⟨l.take 64 ++ q, ?_, ?_, ?_, hrest⟩
        · conv_lhs => rw [← List.take_append_drop 64 l]
          rw [heq, List.append_assoc]
        · rw [List.length_append, List.length_take]
          omega
        · have htb : toBlocks (l.take 64 ++ q) = toBlocks (l.take 64) ++ toBlocks q := by
            apply toBlocks_append 1
            rw [List.length_take]; omega
          rw [hst, htb, List.foldl_append,
              toBlocks_single (l.take 64) (by rw [List.length_take]; omega)]
          rfl
      · simp only [if_neg h64]
        exact ⟨[], by simp [toBlocks_nil], by simp, by simp [toBlocks_nil], by omega⟩

theorem processFull_spec (h : Hash8) (l : List Nat) :
    ∃ q : List Nat,
      l = q ++ (processFull h l).2 ∧ q.length % 64 = 0 ∧
      (processFull h l).1 = (toBlocks q).foldl compress h ∧
      (processFull h l).2.length < 64 :=
  processFullF_spec l.length h l (le_refl _)

/-- The writer-state invariant: everything written so far is `msg`, split into
fully compressed 64-byte blocks plus the buffered tail. -/
def HWInv (s : HashingWriter) (msg : List Nat) : Prop :=
  s.total = msg.length ∧ s.buf.length < 64 ∧
  ∃ q : List Nat, msg = q ++ s.buf ∧ q.length % 64 = 0 ∧
    s.hw = (toBlocks q).foldl compress initH

theorem hwInv_init : HWInv HashingWriter.init [] :=
  ⟨rfl, by simp [HashingWriter.init], [], by simp [HashingWriter.init],
   by simp, by simp [HashingWriter.init, toBlocks_nil]⟩

theorem hwInv_write {s : HashingWriter} {msg : List Nat} (p : List Nat)
    (hinv : HWInv s msg) : HWInv (s.write p) (msg ++ p) := by
  obtain ⟨htot, hblt, q, hsplit, hmod, hst⟩ := hinv
  obtain ⟨q₂, heq₂, hmod₂, hst₂, hrest₂⟩ := processFull_spec s.hw (s.buf ++ p)
  refine ⟨?_, hrest₂, q ++ q₂, ?_, ?_, ?_⟩
  · simp [HashingWriter.write, htot]
  · show msg ++ p = (q ++ q₂) ++ (processFull s.hw (s.buf ++ p)).2
    rw [hsplit, List.append_assoc, List.append_assoc, ← heq₂]
  · rw [List.length_append]; omega
  · show (processFull s.hw (s.buf ++ p)).1 = _
    have htb : toBlocks (q ++ q₂) = toBlocks q ++ toBlocks q₂ :=
      toBlocks_append (q.length / 64) q q₂
        (by rw [Nat.mul_div_cancel' (Nat.dvd_of_mod_eq_zero hmod)])
    rw [hst₂, htb, List.foldl_append, ← hst]

theorem hwInv_writeAll :
    ∀ chunks : List (List Nat), ∀ s : HashingWriter, ∀ msg : List Nat,
      HWInv s msg → HWInv (s.writeAll chunks) (msg ++ chunks.flatten) := by
  intro chunks
  induction chunks with
  | nil => intro s msg h; simpa [HashingWriter.writeAll] using h
  | cons c cs ih =>
      intro s msg h
      have h₁ : HWInv (s.write c) (msg ++ c) := hwInv_write c h
      have h₂ := ih (s.write c) (msg ++ c) h₁
      simpa [HashingWriter.writeAll, List.append_assoc] using h₂

theorem hwInv_hashHex {s : HashingWriter} {msg : List Nat} (hinv : HWInv s msg) :
    s.hashHex = sha256Hex msg := by
  obtain ⟨htot, hblt, q, hsplit, hmod, hst⟩ := hinv
  obtain ⟨q₂, heq₂, hmod₂, hst₂, hrest₂⟩ :=
    processFull_spec s.hw (s.buf ++ padSuffix s.total)
  show hexOfHash8 (processFull s.hw (s.buf ++ padSuffix s.total)).1 = _
  generalize hgen : processFull s.hw (s.buf ++ padSuffix s.total) = pr
    at heq₂ hst₂ hrest₂ ⊢
  -- the padded tail has block-aligned length, so nothing is left unprocessed
  have htotmod : s.total % 64 = s.buf.length := by
    rw [htot, hsplit, List.length_append]; omega
  have hdatalen : (s.buf ++ padSuffix s.total).length % 64 = 0 := by
    simp only [List.length_append, padSuffix, List.length_cons, beBytes_length,
      List.length_replicate, padZeroCount, htotmod]
    omega
  have hq₂len : (s.buf ++ padSuffix s.total).length = q₂.length + pr.2.length := by
    rw [heq₂, List.length_append]
  have hrestnil : pr.2 = [] := by
    apply List.eq_nil_of_length_eq_zero
    omega
  have hq₂eq : s.buf ++ padSuffix s.total = q₂ := by
    rw [heq₂, hrestnil, List.append_nil]
  have htb : toBlocks (pad msg) = toBlocks q ++ toBlocks (s.buf ++ padSuffix s.total) := by
    have hpad : pad msg = q ++ (s.buf ++ padSuffix s.total) := by
      rw [pad, htot, hsplit, List.append_assoc]
    rw [hpad]
    exact toBlocks_append (q.length / 64) _ _
      (by rw [Nat.mul_div_cancel' (Nat.dvd_of_mod_eq_zero hmod)])
  simp only [sha256Hex, sha256Words]
  rw [hst₂, ← hq₂eq, htb, List.foldl_append, ← hst]

theorem hwInv_total {s : HashingWriter} {msg : List Nat} (hinv : HWInv s msg) :
    s.total = msg.length := hinv.1

/-- The theorem behind component C1 of the spec: one-pass streaming hash of any
chunked stream equals the SHA-256 of the concatenated stream. -/
theorem writeAll_hashHex (chunks : List (List Nat)) :
    (HashingWriter.init.writeAll chunks).hashHex = sha256Hex chunks.flatten ∧
    (HashingWriter.init.writeAll chunks).total = chunks.flatten.length := by
  have h := hwInv_writeAll chunks HashingWriter.init [] hwInv_init
  rw [List.nil_append] at h
  exact ⟨hwInv_hashHex h, hwInv_total h⟩

/-! ### Blob store (`DiskBlobStorage`, part_004)

The file `blobs/<xx>/<hash>` is addressed by the hash alone (`BlobPath` is
injective on 64-char hex hashes), so the on-disk blob set is modelled as an
association list from hash to stored bytes. -/

abbrev BlobState := List (String × List Nat)

/-- `hashing.BlobDir`: two-character shard directory of a hash. -/
def BlobDir (hash : String) : String :=
  if hash.length < 2 then hash else ⟨hash.data.take 2⟩

/-- `DiskBlobStorage.BlobPath`: pure path computation. -/
def BlobPath (dataDir hash : String) : String :=
  dataDir ++ "/blobs/" ++ BlobDir hash ++ "/" ++ hash

namespace DiskBlobStorage

/-- `os.Stat` on the final content-addressed path: does the blob file exist? -/
def pathExists (d : BlobState) (h : String) : Bool :=
  (d.find? (fun e => e.1 == h)).isSome

/-- `DiskBlobStorage.Store` over a chunked source stream: stream through the
hashing writer into a temp file; on commit, if the final path already exists
drop the temp (dedup hit), else rename the temp into place. Returns
`((hash, size), new disk state)`. -/
def Store (d : BlobState) (chunks : List (List Nat)) : (String × Nat) × BlobState :=
  let w := HashingWriter.init.writeAll chunks
  if pathExists d w.hashHex then ((w.hashHex, w.total), d)
  else ((w.hashHex, w.total), (w.hashHex, chunks.flatten) :: d)

/-- `DiskBlobStorage.Open`: `none` models `ErrNotFound` (file absent). -/
def OpenBlob (d : BlobState) (h : String) : Option (List Nat) :=
  (d.find? (fun e => e.1 == h)).map (fun e => e.2)

/-- `DiskBlobStorage.Exists`. -/
def ExistsBlob (d : BlobState) (h : String) : Bool := pathExists d h

/-- `DiskBlobStorage.Delete`: remove the file; absence is not an error. -/
def Delete (d : BlobState) (h : String) : BlobState :=
  d.filter (fun e => !(e.1 == h))

end DiskBlobStorage

theorem pathExists_iff (d : BlobState) (h : String) :
    DiskBlobStorage.pathExists d h = true ↔ h ∈ d.map Prod.fst := by
  simp only [DiskBlobStorage.pathExists, List.find?_isSome, List.mem_map]
  constructor
  · rintro ⟨e, he, heq⟩
    exact ⟨e, he, beq_iff_eq.mp heq⟩
  · rintro ⟨e, he, heq⟩
    exact ⟨e, he, beq_iff_eq.mpr heq⟩

/-- `Store` rewritten with the digest of the whole stream in place of the
streamed hash (by the streaming lemmas). -/
theorem store_eq (d : BlobState) (chunks : List (List Nat)) :
    DiskBlobStorage.Store d chunks =
      if DiskBlobStorage.pathExists d (sha256Hex chunks.flatten) then
        ((sha256Hex chunks.flatten, chunks.flatten.length), d)
      else ((sha256Hex chunks.flatten, chunks.flatten.length),
            (sha256Hex chunks.flatten, chunks.flatten) :: d) := by
  obtain ⟨hh, ht⟩ := writeAll_hashHex chunks
  simp only [DiskBlobStorage.Store, hh, ht]

/-! ### Blob enumeration (`DiskBlobStorage.ListBlobs` and `isHexHash`, part_004)

`ListBlobs` walks the real directory tree, so it is modelled over a two-level
listing of `blobs/`: the shard entries, and each shard directory's entries. -/

/-- An entry of a shard subdirectory `blobs/<xx>/`. -/
structure SubEntry where
  name : String
  isDir : Bool
deriving Repr, DecidableEq

/-- An entry of the top-level `blobs/` directory, with its own listing when it
is a directory. -/
structure PrefixEntry where
  name : String
  isDir : Bool
  entries : List SubEntry
deriving Repr, DecidableEq

abbrev BlobsDir := List PrefixEntry

/-- `isHexHash`: 64 characters, each `0-9` or lowercase `a-f`. -/
def isHexHash (v : String) : Bool :=
  v.length == 64 &&
  v.data.all (fun c =>
    decide ((48 ≤ c.toNat ∧ c.toNat ≤ 57) ∨ (97 ≤ c.toNat ∧ c.toNat ≤ 102)))

/-- `DiskBlobStorage.ListBlobs`: for each 2-character shard directory, collect
the non-directory entries whose name starts with the shard name and is a
64-char lowercase hex hash. -/
def ListBlobs (t : BlobsDir) : List String :=
  (t.map (fun p =>
    if p.isDir && p.name.length == 2 then
      (p.entries.filter (fun e =>
        !e.isDir && p.name.data.isPrefixOf e.name.data && isHexHash e.name)).map (fun e => e.name)
    else [])).flatten

/-- Modelled from the claim's words for comparison: the entries C6 says
`list_blobs` returns — 2-char directory, non-directory 64-char lowercase hex
file name — with no condition relating file name and directory name. -/
def listBlobsClaimed (t : BlobsDir) (h : String) : Prop :=
  ∃ p ∈ t, p.isDir = true ∧ p.name.length = 2 ∧
    ∃ e ∈ p.entries, e.isDir = false ∧ e.name = h ∧ isHexHash h = true

/-- C1: `Store` returns the lowercase hex SHA-256 of the streamed content and
its byte length; a second store of the same content returns the same result and
leaves the state with exactly one file for that hash; the empty stream hashes
to `e3b0...b855` with size 0. -/
theorem C1_store_hash_dedup (d : BlobState) (chunks : List (List Nat))
    (hnd : (d.map Prod.fst).Nodup) :
    (DiskBlobStorage.Store d chunks).1.1 = sha256Hex chunks.flatten ∧
    (DiskBlobStorage.Store d chunks).1.2 = chunks.flatten.length ∧
    DiskBlobStorage.Store (DiskBlobStorage.Store d chunks).2 chunks =
      DiskBlobStorage.Store d chunks ∧
    ((DiskBlobStorage.Store d chunks).2.map Prod.fst).count (sha256Hex chunks.flatten) = 1 ∧
    (DiskBlobStorage.Store ([] : BlobState) ([] : List (List Nat))).1 =
      ("e3b0c44298fc1c149afbf4c8996fb92427ae41e4649b934ca495991b7852b855", 0) := by
  by_cases hex : DiskBlobStorage.pathExists d (sha256Hex chunks.flatten) = true
  · have hstore : DiskBlobStorage.Store d chunks =
        ((sha256Hex chunks.flatten, chunks.flatten.length), d) := by
      rw [store_eq, if_pos hex]
    have hmem : sha256Hex chunks.flatten ∈ d.map Prod.fst := (pathExists_iff d _).mp hex
    refine ⟨by rw [hstore], by rw [hstore], ?_, ?_, by decide⟩
    · rw [hstore]
      exact hstore
    · rw [hstore]
      exact List.count_eq_one_of_mem hnd hmem
  · have hstore : DiskBlobStorage.Store d chunks =
        ((sha256Hex chunks.flatten, chunks.flatten.length),
          (sha256Hex chunks.flatten, chunks.flatten) :: d) := by
      rw [store_eq, if_neg hex]
    have hnmem : sha256Hex chunks.flatten ∉ d.map Prod.fst := fun hc =>
      hex ((pathExists_iff d _).mpr hc)
    have hex₂ : DiskBlobStorage.pathExists
        ((sha256Hex chunks.flatten, chunks.flatten) :: d) (sha256Hex chunks.flatten) = true :=
      (pathExists_iff _ _).mpr (by simp)
    have hstore₂ : DiskBlobStorage.Store
        ((sha256Hex chunks.flatten, chunks.flatten) :: d) chunks =
        ((sha256Hex chunks.flatten, chunks.flatten.length),
          (sha256Hex chunks.flatten, chunks.flatten) :: d) := by
      rw [store_eq, if_pos hex₂]
    refine ⟨by rw [hstore], by rw [hstore], ?_, ?_, by decide⟩
    · rw [hstore]
      exact hstore₂
    · rw [hstore]
      simp [List.count_cons_self, List.count_eq_zero_of_not_mem hnmem]

/-- C6 (amended): `list_blobs` returns exactly the hashes `h` for which some
2-character shard directory holds a non-directory entry named `h` such that `h`
starts with the shard directory name and is 64-char lowercase hex; every other
entry is skipped. (The claim as stated omits the starts-with condition; see the
counterexample.) -/
theorem C6_listBlobs_exact (t : BlobsDir) (h : String) :
    h ∈ ListBlobs t ↔
      ∃ p ∈ t, p.isDir = true ∧ p.name.length = 2 ∧
        ∃ e ∈ p.entries, e.isDir = false ∧ e.name = h ∧
          p.name.data.isPrefixOf e.name.data = true ∧ isHexHash e.name = true := by
  simp only [ListBlobs, List.mem_flatten, List.mem_map]
  constructor
  · rintro ⟨l, ⟨p, hp, rfl⟩, hl⟩
    by_cases hc : (p.isDir && p.name.length == 2) = true
    · rw [if_pos hc] at hl
      simp only [Bool.and_eq_true, beq_iff_eq] at hc
      simp only [List.mem_map, List.mem_filter, Bool.and_eq_true,
        Bool.not_eq_true'] at hl
      obtain ⟨e, ⟨he, ⟨hed, hsw⟩, hhex⟩, rfl⟩ := hl
      exact ⟨p, hp, hc.1, hc.2, e, he, hed, rfl, hsw, hhex⟩
    · rw [if_neg hc] at hl
      simp at hl
  · rintro ⟨p, hp, hdir, hlen, e, he, hedir, rfl, hsw, hhex⟩
    refine ⟨_, ⟨p, hp, rfl⟩, ?_⟩
    rw [if_pos (by simp [hdir, hlen])]
    simp only [List.mem_map, List.mem_filter]
    exact ⟨e, ⟨he, by simp [hedir, hsw, hhex]⟩, rfl⟩

/-- A 64-char lowercase hex name that does not start with its shard directory
name: `isHexHash` accepts it, but `ListBlobs` skips it. -/
def hashAllB : String := ⟨List.replicate 64 'b'⟩

/-- A shard tree with directory `aa` holding the file of 64 `b`s. -/
def cexTree : BlobsDir := [⟨"aa", true, [⟨hashAllB, false⟩]⟩]

/-- C6 counterexample: the file of 64 `b`s inside shard directory `aa` is a
64-char lowercase hex name under a 2-char directory, so the claim as stated
says `list_blobs` returns it; the code skips it because it does not start with
`aa`, returning the empty list. -/
theorem C6_listBlobs_counterexample :
    listBlobsClaimed cexTree hashAllB ∧ ListBlobs cexTree = [] := by
  constructor
  · unfold listBlobsClaimed
    decide
  · decide

/-- Witness for C1 at a concrete input: the nodup hypothesis holds for the
empty disk, and the theorem applies to storing the bytes of "hello". -/
theorem C1_store_hash_dedup_witness :
    (([] : BlobState).map Prod.fst).Nodup ∧
    ((DiskBlobStorage.Store ([] : BlobState) [[104, 101, 108, 108, 111]]).1.1 =
      sha256Hex [104, 101, 108, 108, 111] ∧
     (DiskBlobStorage.Store ([] : BlobState) [[104, 101, 108, 108, 111]]).1.2 =
      [104, 101, 108, 108, 111].length ∧
     DiskBlobStorage.Store
        (DiskBlobStorage.Store ([] : BlobState) [[104, 101, 108, 108, 111]]).2
        [[104, 101, 108, 108, 111]] =
      DiskBlobStorage.Store ([] : BlobState) [[104, 101, 108, 108, 111]] ∧
     ((DiskBlobStorage.Store ([] : BlobState) [[104, 101, 108, 108, 111]]).2.map
        Prod.fst).count (sha256Hex [104, 101, 108, 108, 111]) = 1 ∧
     (DiskBlobStorage.Store ([] : BlobState) ([] : List (List Nat))).1 =
      ("e3b0c44298fc1c149afbf4c8996fb92427ae41e4649b934ca495991b7852b855", 0)) := by
  refine ⟨List.nodup_nil, ?_⟩
  have h := C1_store_hash_dedup ([] : BlobState) [[104, 101, 108, 108, 111]] List.nodup_nil
  simpa using h

/-! ### Metadata store (`SQLiteStore`, part_003)

The two tables are modelled as lists of rows in insertion (rowid) order, with
the AUTOINCREMENT counters carried alongside. The `models.Artifact.Package`
field is join-time decoration and not a table column, so it is not modelled. -/

structure Package where
  id : Nat
  name : String
deriving Repr, DecidableEq

structure Artifact where
  id : Nat
  packageId : Nat
  version : String
  hash : String
  size : Nat
  uploadedAt : Nat
deriving Repr, DecidableEq

structure MetaState where
  packages : List Package
  artifacts : List Artifact
  nextPackageId : Nat
  nextArtifactId : Nat
deriving Repr, DecidableEq

inductive MetaErr where
  | conflict
  | notFound
deriving Repr, DecidableEq

/-- SQLite folds only ASCII `A`-`Z` for its default `LIKE` (and `NOCASE`). -/
def asciiLower (c : Char) : Char :=
  if 65 ≤ c.toNat ∧ c.toNat ≤ 90 then Char.ofNat (c.toNat + 32) else c

/-- SQLite `LIKE` pattern matching over characters: `%` matches any sequence,
`_` any single character, anything else matches ASCII-case-insensitively.
Fuel-based structural recursion; `fuel > pattern.length + s.length` suffices. -/
def likeMatchF : Nat → List Char → List Char → Bool
  | 0, p, s => p.isEmpty && s.isEmpty
  | fuel + 1, p, s =>
      match p with
      | [] => s.isEmpty
      | c :: ps =>
        if c = '%' then
          likeMatchF fuel ps s ||
            (match s with
             | [] => false
             | _ :: s2 => likeMatchF fuel (c :: ps) s2)
        else
          match s with
          | [] => false
          | c2 :: s2 =>
            if c = '_' then likeMatchF fuel ps s2
            else (asciiLower c == asciiLower c2) && likeMatchF fuel ps s2

def likeMatch (pat s : List Char) : Bool :=
  likeMatchF (pat.length + s.length + 1) pat s

/-- Lexicographic byte order on UTF-8 strings, i.e. SQLite's BINARY collation
(codepoint order coincides with UTF-8 byte order). -/
def charListLe : List Char → List Char → Bool
  | [], _ => true
  | _ :: _, [] => false
  | a :: as, b :: bs =>
      if a.toNat < b.toNat then true
      else if a.toNat = b.toNat then charListLe as bs
      else false

/-- The BINARY-collation order on package names. -/
def nameLe (a b : Package) : Prop := charListLe a.name.data b.name.data = true

instance (a b : Package) : Decidable (nameLe a b) := by
  unfold nameLe
  infer_instance

/-- `ORDER BY name` under SQLite's default BINARY collation. -/
def sortByName (l : List Package) : List Package :=
  l.insertionSort nameLe

namespace SQLiteStore

/-- `CreatePackage`: `INSERT OR IGNORE` then `SELECT id` — idempotent. -/
def CreatePackage (m : MetaState) (name : String) : Nat × MetaState :=
  match m.packages.find? (fun p => p.name == name) with
  | some p => (p.id, m)
  | none =>
      (m.nextPackageId,
       { m with packages := m.packages ++ [⟨m.nextPackageId, name⟩],
                nextPackageId := m.nextPackageId + 1 })

/-- `GetPackage`: `SELECT ... WHERE name = ?`, `nil` when no row. -/
def GetPackage (m : MetaState) (name : String) : Option Package :=
  m.packages.find? (fun p => p.name == name)

/-- `ListPackages`: `SELECT id, name FROM packages ORDER BY name`. -/
def ListPackages (m : MetaState) : List Package := sortByName m.packages

/-- `SearchPackages`: `SELECT ... WHERE name LIKE '%' || q || '%' ORDER BY name`
(the pattern characters are those of the Go string `"%" + query + "%"`). -/
def SearchPackages (m : MetaState) (q : String) : List Package :=
  sortByName (m.packages.filter (fun p => likeMatch ("%" ++ q ++ "%").data p.name.data))

/-- `CreateArtifact`: `INSERT`; `UNIQUE(package_id, version)` violation is
`CONFLICT`. Returns the inserted row. -/
def CreateArtifact (m : MetaState) (packageID : Nat) (version hash : String)
    (size : Nat) (now : Nat) : Except MetaErr (Artifact × MetaState) :=
  if m.artifacts.any (fun a => a.packageId == packageID && a.version == version) then
    .error .conflict
  else
    .ok (⟨m.nextArtifactId, packageID, version, hash, size, now⟩,
         { m with
             artifacts := m.artifacts ++ [⟨m.nextArtifactId, packageID, version, hash, size, now⟩],
             nextArtifactId := m.nextArtifactId + 1 })

/-- `GetArtifact`: join on `p.name = ? AND a.version = ?`, `nil` when no row. -/
def GetArtifact (m : MetaState) (packageName version : String) : Option Artifact :=
  match m.packages.find? (fun p => p.name == packageName) with
  | none => none
  | some p => m.artifacts.find? (fun a => a.packageId == p.id && a.version == version)

/-- `DeleteArtifact`: `DELETE WHERE package_id = (SELECT id ...) AND version = ?`;
`NOT_FOUND` when zero rows were affected. A `NULL` subquery (missing package)
matches no row, as in SQL. -/
def DeleteArtifact (m : MetaState) (packageName version : String) :
    Except MetaErr MetaState :=
  let pid := (m.packages.find? (fun p => p.name == packageName)).map (fun p => p.id)
  let kept := m.artifacts.filter
    (fun a => !((some a.packageId == pid) && (a.version == version)))
  if kept.length == m.artifacts.length then .error .notFound
  else .ok { m with artifacts := kept }

/-- `ReferencedHashes`: `SELECT DISTINCT hash FROM artifacts` (as a list whose
membership is what the GC consults). -/
def ReferencedHashes (m : MetaState) : List String :=
  (m.artifacts.map (fun a => a.hash)).dedup

end SQLiteStore

/-- The uniqueness invariants the schema enforces: unique package names and
ids, and `UNIQUE(package_id, version)` on artifacts. -/
def MetaWF (m : MetaState) : Prop :=
  (m.packages.map Package.name).Nodup ∧
  (m.packages.map Package.id).Nodup ∧
  (m.artifacts.map (fun a => (a.packageId, a.version))).Nodup

/-- Modelled from the claim's words for comparison: packages whose name
contains the query as a case-sensitive substring, ordered by name. -/
def searchPackagesClaimed (m : MetaState) (q : String) : List Package :=
  sortByName (m.packages.filter (fun p => decide (q.data <:+: p.name.data)))

/-- ASCII-case-insensitive substring containment (what SQLite `LIKE '%q%'`
computes for a wildcard-free `q`). -/
def containsCI (q s : String) : Prop :=
  (q.data.map asciiLower) <:+: (s.data.map asciiLower)

/-! ### `LIKE` semantics: `'%q%'` is ASCII-case-insensitive containment -/

theorem likeMatchF_succ_cons (fuel : Nat) (c : Char) (ps s : List Char) :
    likeMatchF (fuel + 1) (c :: ps) s =
      if c = '%' then
        likeMatchF fuel ps s ||
          (match s with
           | [] => false
           | _ :: s2 => likeMatchF fuel (c :: ps) s2)
      else
        match s with
        | [] => false
        | c2 :: s2 =>
          if c = '_' then likeMatchF fuel ps s2
          else (asciiLower c == asciiLower c2) && likeMatchF fuel ps s2 := rfl

theorem likeMatchF_congr :
    ∀ fuel₁ fuel₂ : Nat, ∀ p s : List Char,
      p.length + s.length < fuel₁ → p.length + s.length < fuel₂ →
      likeMatchF fuel₁ p s = likeMatchF fuel₂ p s := by
  intro fuel₁
  induction fuel₁ with
  | zero => intro fuel₂ p s h₁ _; exact absurd h₁ (Nat.not_lt_zero _)
  | succ fuel ih =>
      intro fuel₂ p s h₁ h₂
      cases fuel₂ with
      | zero => exact absurd h₂ (Nat.not_lt_zero _)
      | succ fuel₂ =>
          cases p with
          | nil => rfl
          | cons c ps =>
              rw [likeMatchF_succ_cons, likeMatchF_succ_cons]
              simp only [List.length_cons] at h₁ h₂
              by_cases hc : c = '%'
              · simp only [if_pos hc]
                cases s with
                | nil =>
                    show (likeMatchF fuel ps [] || false) =
                         (likeMatchF fuel₂ ps [] || false)
                    rw [ih fuel₂ ps []
                          (by simp only [List.length_nil] at h₁ ⊢; omega)
                          (by simp only [List.length_nil] at h₂ ⊢; omega)]
                | cons c2 s2 =>
                    simp only [List.length_cons] at h₁ h₂
                    show (likeMatchF fuel ps (c2 :: s2) ||
                          likeMatchF fuel (c :: ps) s2) =
                         (likeMatchF fuel₂ ps (c2 :: s2) ||
                          likeMatchF fuel₂ (c :: ps) s2)
                    rw [ih fuel₂ ps (c2 :: s2)
                          (by simp only [List.length_cons]; omega)
                          (by simp only [List.length_cons]; omega),
                        ih fuel₂ (c :: ps) s2
                          (by simp only [List.length_cons]; omega)
                          (by simp only [List.length_cons]; omega)]
              · simp only [if_neg hc]
                cases s with
                | nil => rfl
                | cons c2 s2 =>
                    simp only [List.length_cons] at h₁ h₂
                    show (if c = '_' then likeMatchF fuel ps s2
                          else (asciiLower c == asciiLower c2) && likeMatchF fuel ps s2) =
                         (if c = '_' then likeMatchF fuel₂ ps s2
                          else (asciiLower c == asciiLower c2) && likeMatchF fuel₂ ps s2)
                    rw [ih fuel₂ ps s2 (by omega) (by omega)]

theorem likeMatchF_eq_likeMatch (fuel : Nat) (p s : List Char)
    (h : p.length + s.length < fuel) : likeMatchF fuel p s = likeMatch p s :=
  likeMatchF_congr fuel (p.length + s.length + 1) p s h (by omega)

theorem likeMatch_nil (s : List Char) : likeMatch [] s = s.isEmpty := rfl

theorem likeMatch_pct_nil (ps : List Char) :
    likeMatch ('%' :: ps) [] = likeMatch ps [] := by
  show (likeMatchF ((ps.length + 1) + 0) ps [] || false) = likeMatch ps []
  rw [Bool.or_false]
  exact likeMatchF_eq_likeMatch _ _ _ (by simp only [List.length_nil]; omega)

theorem likeMatch_pct_cons (ps : List Char) (c2 : Char) (s2 : List Char) :
    likeMatch ('%' :: ps) (c2 :: s2) =
      (likeMatch ps (c2 :: s2) || likeMatch ('%' :: ps) s2) := by
  show (likeMatchF ((ps.length + 1) + (s2.length + 1)) ps (c2 :: s2) ||
        likeMatchF ((ps.length + 1) + (s2.length + 1)) ('%' :: ps) s2) = _
  rw [likeMatchF_eq_likeMatch _ _ _ (by simp only [List.length_cons]; omega),
      likeMatchF_eq_likeMatch _ _ _ (by simp only [List.length_cons]; omega)]

theorem likeMatch_lit_nil (c : Char) (ps : List Char) (hc : c ≠ '%') :
    likeMatch (c :: ps) [] = false := by
  rw [show likeMatch (c :: ps) [] =
        likeMatchF ((c :: ps).length + ([] : List Char).length + 1) (c :: ps) [] from rfl,
      likeMatchF_succ_cons, if_neg hc]

theorem likeMatch_lit_cons (c : Char) (ps : List Char) (c2 : Char) (s2 : List Char)
    (hc : c ≠ '%') :
    likeMatch (c :: ps) (c2 :: s2) =
      if c = '_' then likeMatch ps s2
      else ((asciiLower c == asciiLower c2) && likeMatch ps s2) := by
  rw [show likeMatch (c :: ps) (c2 :: s2) =
        likeMatchF ((c :: ps).length + (c2 :: s2).length + 1) (c :: ps) (c2 :: s2) from rfl,
      likeMatchF_succ_cons, if_neg hc]
  show (if c = '_' then likeMatchF ((c :: ps).length + (c2 :: s2).length) ps s2
        else (asciiLower c == asciiLower c2) &&
          likeMatchF ((c :: ps).length + (c2 :: s2).length) ps s2) = _
  rw [likeMatchF_eq_likeMatch _ _ _ (by simp only [List.length_cons]; omega)]

theorem likeMatch_pct_all (s : List Char) : likeMatch ['%'] s = true := by
  induction s with
  | nil => rfl
  | cons c s ih => rw [likeMatch_pct_cons, ih, Bool.or_true]

theorem likeMatch_pct_iff (ps s : List Char) :
    likeMatch ('%' :: ps) s = true ↔
      ∃ s₁ s₂ : List Char, s = s₁ ++ s₂ ∧ likeMatch ps s₂ = true := by
  induction s with
  | nil =>
      rw [likeMatch_pct_nil]
      constructor
      · intro h; exact ⟨[], [], rfl, h⟩
      · rintro ⟨s₁, s₂, heq, h⟩
        obtain ⟨rfl, rfl⟩ := List.append_eq_nil.mp heq.symm
        exact h
  | cons c2 s2 ih =>
      rw [likeMatch_pct_cons, Bool.or_eq_true, ih]
      constructor
      · rintro (h | ⟨s₁, s₃, rfl, h⟩)
        · exact ⟨[], c2 :: s2, rfl, h⟩
        · exact ⟨c2 :: s₁, s₃, rfl, h⟩
      · rintro ⟨s₁, s₃, heq, h⟩
        cases s₁ with
        | nil =>
            left
            rw [List.nil_append] at heq
            rw [← heq] at h
            exact h
        | cons d s₁ =>
            right
            rw [List.cons_append] at heq
            injection heq with h1 h2
            exact ⟨s₁, s₃, h2, h⟩

theorem likeMatch_nowild_iff :
    ∀ p : List Char, '%' ∉ p → '_' ∉ p → ∀ s : List Char,
      (likeMatch p s = true ↔ p.map asciiLower = s.map asciiLower) := by
  intro p
  induction p with
  | nil =>
      intro _ _ s
      rw [likeMatch_nil]
      cases s with
      | nil => simp
      | cons c s => simp
  | cons c ps ih =>
      intro hpc hpu s
      have hc : c ≠ '%' := fun h => hpc (h ▸ List.mem_cons_self c ps)
      have hu : c ≠ '_' := fun h => hpu (h ▸ List.mem_cons_self c ps)
      have hps : '%' ∉ ps := fun h => hpc (List.mem_cons_of_mem c h)
      have hpu2 : '_' ∉ ps := fun h => hpu (List.mem_cons_of_mem c h)
      cases s with
      | nil =>
          rw [likeMatch_lit_nil c ps hc]
          simp
      | cons c2 s2 =>
          rw [likeMatch_lit_cons c ps c2 s2 hc, if_neg hu, Bool.and_eq_true,
              beq_iff_eq, ih hps hpu2 s2]
          simp only [List.map_cons, List.cons.injEq]

theorem likeMatch_append_pct_iff :
    ∀ p : List Char, '%' ∉ p → '_' ∉ p → ∀ s : List Char,
      (likeMatch (p ++ ['%']) s = true ↔
        ∃ s₁ s₂ : List Char, s = s₁ ++ s₂ ∧ s₁.map asciiLower = p.map asciiLower) := by
  intro p
  induction p with
  | nil =>
      intro _ _ s
      rw [List.nil_append]
      constructor
      · intro _; exact ⟨[], s, rfl, rfl⟩
      · intro _; exact likeMatch_pct_all s
  | cons c ps ih =>
      intro hpc hpu s
      have hc : c ≠ '%' := fun h => hpc (h ▸ List.mem_cons_self c ps)
      have hu : c ≠ '_' := fun h => hpu (h ▸ List.mem_cons_self c ps)
      have hps : '%' ∉ ps := fun h => hpc (List.mem_cons_of_mem c h)
      have hpu2 : '_' ∉ ps := fun h => hpu (List.mem_cons_of_mem c h)
      rw [List.cons_append]
      cases s with
      | nil =>
          rw [likeMatch_lit_nil _ _ hc]
          constructor
          · intro h; exact absurd h (by simp)
          · rintro ⟨s₁, s₂, heq, hmap⟩
            obtain ⟨rfl, rfl⟩ := List.append_eq_nil.mp heq.symm
            simp at hmap
      | cons c2 s2 =>
          rw [likeMatch_lit_cons _ _ _ _ hc, if_neg hu, Bool.and_eq_true,
              beq_iff_eq, ih hps hpu2 s2]
          constructor
          · rintro ⟨hlow, s₁, s₂, rfl, hmap⟩
            refine ⟨c2 :: s₁, s₂, rfl, ?_⟩
            simp only [List.map_cons, hmap, hlow]
          · rintro ⟨s₁, s₂, heq, hmap⟩
            cases s₁ with
            | nil => simp at hmap
            | cons d s₁ =>
                rw [List.cons_append] at heq
                injection heq with h1 h2
                simp only [List.map_cons, List.cons.injEq] at hmap
                subst h1
                exact ⟨hmap.1.symm, s₁, s₂, h2, hmap.2⟩

/-- The pattern `%q%` for wildcard-free `q` matches `s` exactly when the
ASCII-lowercased `q` occurs inside the ASCII-lowercased `s`. -/
theorem likeMatch_infix_iff (q : List Char) (hq1 : '%' ∉ q) (hq2 : '_' ∉ q)
    (s : List Char) :
    likeMatch ('%' :: (q ++ ['%'])) s = true ↔
      (q.map asciiLower) <:+: (s.map asciiLower) := by
  rw [likeMatch_pct_iff]
  constructor
  · rintro ⟨s₁, s₂, rfl, h⟩
    obtain ⟨t₁, t₂, rfl, hm⟩ := (likeMatch_append_pct_iff q hq1 hq2 s₂).mp h
    exact ⟨s₁.map asciiLower, t₂.map asciiLower, by simp [hm]⟩
  · rintro ⟨pre, post, heq⟩
    have heq2 : s.map asciiLower = pre ++ (q.map asciiLower ++ post) := by
      rw [← heq, List.append_assoc]
    obtain ⟨u₁, rest, rfl, hu1, hrest⟩ := List.map_eq_append_iff.mp heq2
    obtain ⟨u₂, u₃, rfl, hu2, hu3⟩ := List.map_eq_append_iff.mp hrest
    exact ⟨u₁, u₂ ++ u₃, rfl,
      (likeMatch_append_pct_iff q hq1 hq2 _).mpr ⟨u₂, u₃, rfl, hu2⟩⟩

/-! ### Sorting and the C5 theorems -/

theorem charListLe_total : ∀ a b : List Char,
    charListLe a b = true ∨ charListLe b a = true := by
  intro a
  induction a with
  | nil => intro b; left; rfl
  | cons x xs ih =>
      intro b
      cases b with
      | nil => right; rfl
      | cons y ys =>
          simp only [charListLe]
          rcases Nat.lt_trichotomy x.toNat y.toNat with h | h | h
          · left; rw [if_pos h]
          · rcases ih ys with h2 | h2
            · left; rw [if_neg (by omega), if_pos h, h2]
            · right; rw [if_neg (by omega), if_pos h.symm, h2]
          · right; rw [if_pos h]

theorem charListLe_trans : ∀ a b c : List Char,
    charListLe a b = true → charListLe b c = true → charListLe a c = true := by
  intro a
  induction a with
  | nil => intro b c _ _; rfl
  | cons x xs ih =>
      intro b c hab hbc
      cases b with
      | nil => simp [charListLe] at hab
      | cons y ys =>
          cases c with
          | nil => simp [charListLe] at hbc
          | cons z zs =>
              simp only [charListLe] at hab hbc ⊢
              have hab2 : x.toNat < y.toNat ∨
                  (x.toNat = y.toNat ∧ charListLe xs ys = true) := by
                by_cases h1 : x.toNat < y.toNat
                · exact Or.inl h1
                · rw [if_neg h1] at hab
                  by_cases h2 : x.toNat = y.toNat
                  · rw [if_pos h2] at hab; exact Or.inr ⟨h2, hab⟩
                  · rw [if_neg h2] at hab; exact absurd hab (by simp)
              have hbc2 : y.toNat < z.toNat ∨
                  (y.toNat = z.toNat ∧ charListLe ys zs = true) := by
                by_cases h1 : y.toNat < z.toNat
                · exact Or.inl h1
                · rw [if_neg h1] at hbc
                  by_cases h2 : y.toNat = z.toNat
                  · rw [if_pos h2] at hbc; exact Or.inr ⟨h2, hbc⟩
                  · rw [if_neg h2] at hbc; exact absurd hbc (by simp)
              rcases hab2 with h | ⟨he, hrec⟩ <;> rcases hbc2 with h2 | ⟨he2, hrec2⟩
              · rw [if_pos (by omega)]
              · rw [if_pos (by omega)]
              · rw [if_pos (by omega)]
              · rw [if_neg (by omega), if_pos (by omega)]
                exact ih ys zs hrec hrec2

instance : IsTotal Package nameLe := ⟨fun a b => charListLe_total a.name.data b.name.data⟩

instance : IsTrans Package nameLe :=
  ⟨fun a b c => charListLe_trans a.name.data b.name.data c.name.data⟩

theorem sortByName_sorted (l : List Package) : List.Sorted nameLe (sortByName l) :=
  List.sorted_insertionSort nameLe l

theorem sortByName_perm (l : List Package) : (sortByName l).Perm l :=
  List.perm_insertionSort nameLe l

/-- C5 (amended): `list_packages` returns all packages ordered by name
ascending (BINARY collation); for a query with no SQL wildcard characters,
`search_packages(q)` returns exactly the packages whose name contains `q`
ASCII-case-insensitively (SQLite `LIKE` is case-insensitive on ASCII), ordered
by name ascending, and is a subset of `list_packages`. (The claim says
case-sensitive; see the counterexample.) -/
theorem C5_list_search (m : MetaState) (q : String)
    (hq1 : '%' ∉ q.data) (hq2 : '_' ∉ q.data) :
    List.Sorted nameLe (SQLiteStore.ListPackages m) ∧
    (SQLiteStore.ListPackages m).Perm m.packages ∧
    List.Sorted nameLe (SQLiteStore.SearchPackages m q) ∧
    (∀ p : Package, p ∈ SQLiteStore.SearchPackages m q ↔
        p ∈ m.packages ∧ containsCI q p.name) ∧
    (∀ p : Package, p ∈ SQLiteStore.SearchPackages m q →
        p ∈ SQLiteStore.ListPackages m) := by
  have hpat : ("%" ++ q ++ "%").data = '%' :: (q.data ++ ['%']) := by
    simp [String.data_append]
  have hmem : ∀ p : Package, p ∈ SQLiteStore.SearchPackages m q ↔
      p ∈ m.packages ∧ containsCI q p.name := by
    intro p
    rw [SQLiteStore.SearchPackages, (sortByName_perm _).mem_iff, List.mem_filter,
      hpat, containsCI]
    rw [likeMatch_infix_iff q.data hq1 hq2 p.name.data]
  refine ⟨sortByName_sorted _, sortByName_perm _, sortByName_sorted _, hmem, ?_⟩
  intro p hp
  exact ((sortByName_perm m.packages).mem_iff).mpr ((hmem p).mp hp).1

/-- Witness for C5: a two-package catalog and the wildcard-free query "my". -/
theorem C5_list_search_witness :
    ('%' ∉ "my".data ∧ '_' ∉ "my".data) ∧
    (∀ p : Package,
      p ∈ SQLiteStore.SearchPackages ⟨[⟨1, "demo"⟩, ⟨2, "my-app"⟩], [], 3, 1⟩ "my" ↔
      p ∈ [⟨1, "demo"⟩, ⟨2, "my-app"⟩] ∧ containsCI "my" p.name) := by
  refine ⟨⟨by decide, by decide⟩, ?_⟩
  exact (C5_list_search ⟨[⟨1, "demo"⟩, ⟨2, "my-app"⟩], [], 3, 1⟩ "my"
    (by decide) (by decide)).2.2.2.1

/-- The catalog for the C5 counterexample: an uppercase name and a lowercase
name with a letter between `m` and `a`. -/
def mcex : MetaState := ⟨[⟨1, "MY-APP"⟩, ⟨2, "mya"⟩], [], 3, 1⟩

/-- C5 counterexample: SQLite `LIKE` is ASCII-case-insensitive and treats `%`
and `_` in the query as wildcards, so `search_packages` differs from
case-sensitive substring filtering: `"my"` matches `MY-APP` and `"m_a"`
matches `mya` although neither is a case-sensitive substring. -/
theorem C5_search_counterexample :
    SQLiteStore.SearchPackages mcex "my" = [⟨1, "MY-APP"⟩, ⟨2, "mya"⟩] ∧
    searchPackagesClaimed mcex "my" = [⟨2, "mya"⟩] ∧
    SQLiteStore.SearchPackages mcex "m_a" = [⟨2, "mya"⟩] ∧
    searchPackagesClaimed mcex "m_a" = [] := by
  refine ⟨by decide, by decide, by decide, by decide⟩

/-! ### HTTP handlers (handlers.go)

The pure model covers the handler logic on the metadata and blob states;
DB/IO failures other than the typed `NOT_FOUND`/`CONFLICT` ones are not
modelled (their branches return 500 in Go and are unreachable here). -/

structure DownloadResponse where
  status : Nat
  message : String
  body : List Nat
deriving Repr, DecidableEq

/-- `Handler.DownloadArtifact`: metadata lookup, then blob open; a missing row
is 404, a missing blob file (`ErrNotFound` from `Open`) is 404 with the
message "artifact blob missing on disk". -/
def DownloadArtifact (m : MetaState) (d : BlobState) (pkgName version : String) :
    DownloadResponse :=
  match SQLiteStore.GetArtifact m pkgName version with
  | none => ⟨404, "artifact " ++ pkgName ++ "@" ++ version ++ " not found", []⟩
  | some a =>
      match DiskBlobStorage.OpenBlob d a.hash with
      | none => ⟨404, "artifact blob missing on disk", []⟩
      | some content => ⟨200, "", content⟩

structure UploadResponse where
  status : Nat
  message : String
  hash : String
  size : Nat
deriving Repr, DecidableEq

/-- `Handler.UploadArtifact` under the per-key upload gate (acquire/release is
a no-op in this sequential model): empty parameter check, existing-artifact
check, blob store, package create, artifact create. -/
def UploadArtifact (m : MetaState) (d : BlobState) (pkgName version : String)
    (body : List (List Nat)) (now : Nat) : UploadResponse × MetaState × BlobState :=
  if pkgName = "" ∨ version = "" then
    (⟨400, "package and version are required", "", 0⟩, m, d)
  else
    match SQLiteStore.GetArtifact m pkgName version with
    | some _ =>
        (⟨409, "artifact " ++ pkgName ++ "@" ++ version ++ " already exists", "", 0⟩, m, d)
    | none =>
        let r := DiskBlobStorage.Store d body
        let pr := SQLiteStore.CreatePackage m pkgName
        match SQLiteStore.CreateArtifact pr.2 pr.1 version r.1.1 r.1.2 now with
        | .error _ =>
            (⟨409, "artifact " ++ pkgName ++ "@" ++ version ++ " already exists", "", 0⟩,
             pr.2, r.2)
        | .ok ar => (⟨201, "", ar.1.hash, ar.1.size⟩, ar.2, r.2)

structure HttpResponse where
  status : Nat
  message : String
deriving Repr, DecidableEq

/-- `Handler.DeleteArtifact`: metadata delete only; the blob store is not
touched on any path. `ErrNotFound` maps to 404 with the error text. -/
def DeleteArtifactHandler (m : MetaState) (d : BlobState) (pkgName version : String) :
    HttpResponse × MetaState × BlobState :=
  match SQLiteStore.DeleteArtifact m pkgName version with
  | .error _ => (⟨404, "not found: artifact " ++ pkgName ++ "@" ++ version⟩, m, d)
  | .ok m2 => (⟨200, "deleted"⟩, m2, d)

/-- The running state of one garbage-collection sweep, plus the trace of
`blob_store.delete` calls made. -/
structure GCState where
  deleted : Nat
  freed : Nat
  disk : BlobState
  deleteCalls : List String
deriving Repr, DecidableEq

/-- `os.Stat` on `BlobPath(h)`: size of the blob file when present. -/
def statSize (d : BlobState) (h : String) : Option Nat :=
  (d.find? (fun e => e.1 == h)).map (fun e => e.2.length)

/-- One iteration of the GC loop body: skip referenced hashes; stat the path
and accumulate its size if the stat succeeds; then delete, skipping (but
keeping the freed contribution) when the delete fails. `fails` models which
`os.Remove` calls fail with a non-NotExist error. -/
def gcStep (referenced : List String) (fails : String → Bool) (st : GCState)
    (h : String) : GCState :=
  if referenced.contains h then st
  else
    let st1 := match statSize st.disk h with
      | some sz => { st with freed := st.freed + sz }
      | none => st
    if fails h then { st1 with deleteCalls := st1.deleteCalls ++ [h] }
    else { st1 with disk := DiskBlobStorage.Delete st1.disk h,
                    deleted := st1.deleted + 1,
                    deleteCalls := st1.deleteCalls ++ [h] }

/-- `Handler.GarbageCollect`: referenced hashes from metadata, on-disk hashes
from the blob store (the flat model's `ListBlobs` is the key list), then the
sweep. -/
def GarbageCollect (m : MetaState) (d : BlobState) (fails : String → Bool) : GCState :=
  (d.map Prod.fst).foldl (gcStep (SQLiteStore.ReferencedHashes m) fails) ⟨0, 0, d, []⟩

/-! ### Upload conflict (C4), download of a missing blob (C8), delete frame (C9) -/

/-- C4: when an artifact already exists at the requested (package, version)
(route parameters are non-empty on any matched route), Upload returns 409 with
a message containing "<package>@<version>", stores nothing in the blob store,
and leaves both catalogs untouched. -/
theorem C4_upload_conflict (m : MetaState) (d : BlobState) (p v : String)
    (body : List (List Nat)) (now : Nat) (a : Artifact)
    (hp : p ≠ "") (hv : v ≠ "")
    (hget : SQLiteStore.GetArtifact m p v = some a) :
    (UploadArtifact m d p v body now).1.status = 409 ∧
    (∃ pre post : String,
      (UploadArtifact m d p v body now).1.message = pre ++ (p ++ "@" ++ v) ++ post) ∧
    (UploadArtifact m d p v body now).2.1 = m ∧
    (UploadArtifact m d p v body now).2.2 = d := by
  have hcond : ¬(p = "" ∨ v = "") := fun h => h.elim hp hv
  have hu : UploadArtifact m d p v body now =
      (⟨409, "artifact " ++ p ++ "@" ++ v ++ " already exists", "", 0⟩, m, d) := by
    simp only [UploadArtifact, if_neg hcond, hget]
  rw [hu]
  exact ⟨rfl, ⟨"artifact ", " already exists", by simp [String.append_assoc]⟩, rfl, rfl⟩

/-- A catalog with one package `demo` and one artifact `demo@1.0.0`. -/
def wArt : Artifact := ⟨1, 1, "1.0.0", "aabbcc", 5, 0⟩

def wMeta : MetaState := ⟨[⟨1, "demo"⟩], [wArt], 2, 2⟩

/-- Witness for C4: uploading `demo@1.0.0` again against `wMeta`. -/
theorem C4_upload_conflict_witness :
    (("demo" : String) ≠ "" ∧ ("1.0.0" : String) ≠ "" ∧
      SQLiteStore.GetArtifact wMeta "demo" "1.0.0" = some wArt) ∧
    ((UploadArtifact wMeta [] "demo" "1.0.0" [] 0).1.status = 409 ∧
     (∃ pre post : String,
       (UploadArtifact wMeta [] "demo" "1.0.0" [] 0).1.message =
         pre ++ ("demo" ++ "@" ++ "1.0.0") ++ post) ∧
     (UploadArtifact wMeta [] "demo" "1.0.0" [] 0).2.1 = wMeta ∧
     (UploadArtifact wMeta [] "demo" "1.0.0" [] 0).2.2 = []) :=
  ⟨⟨by decide, by decide, by decide⟩,
   C4_upload_conflict wMeta [] "demo" "1.0.0" [] 0 wArt
     (by decide) (by decide) (by decide)⟩

/-- C8: a committed metadata row whose blob file is absent downloads as 404
with message "artifact blob missing on disk" (not 500); a missing metadata row
downloads as 404. -/
theorem C8_download_missing_blob (m : MetaState) (d : BlobState) (p v : String) :
    (∀ a : Artifact, SQLiteStore.GetArtifact m p v = some a →
      DiskBlobStorage.OpenBlob d a.hash = none →
      DownloadArtifact m d p v = ⟨404, "artifact blob missing on disk", []⟩) ∧
    (SQLiteStore.GetArtifact m p v = none →
      (DownloadArtifact m d p v).status = 404) := by
  constructor
  · intro a hget hopen
    simp only [DownloadArtifact, hget, hopen]
  · intro hget
    simp only [DownloadArtifact, hget]

/-- Witness for C8: `demo@1.0.0` has a row in `wMeta` but the disk is empty;
`demo@2.0.0` has no row. -/
theorem C8_download_missing_blob_witness :
    (SQLiteStore.GetArtifact wMeta "demo" "1.0.0" = some wArt ∧
      DiskBlobStorage.OpenBlob [] wArt.hash = none ∧
      SQLiteStore.GetArtifact wMeta "demo" "2.0.0" = none) ∧
    DownloadArtifact wMeta [] "demo" "1.0.0" = ⟨404, "artifact blob missing on disk", []⟩ ∧
    (DownloadArtifact wMeta [] "demo" "2.0.0").status = 404 :=
  ⟨⟨by decide, by decide, by decide⟩,
   (C8_download_missing_blob wMeta [] "demo" "1.0.0").1 wArt (by decide) (by decide),
   (C8_download_missing_blob wMeta [] "demo" "2.0.0").2 (by decide)⟩

/-- C9: a successful artifact delete leaves the blob store state unchanged; in
particular the blob addressed by the deleted artifact's hash is still there. -/
theorem C9_delete_keeps_blob (m : MetaState) (d : BlobState) (p v : String)
    (a : Artifact) (_hget : SQLiteStore.GetArtifact m p v = some a)
    (hok : ∃ m2 : MetaState, SQLiteStore.DeleteArtifact m p v = Except.ok m2) :
    (DeleteArtifactHandler m d p v).2.2 = d ∧
    DiskBlobStorage.ExistsBlob (DeleteArtifactHandler m d p v).2.2 a.hash =
      DiskBlobStorage.ExistsBlob d a.hash := by
  obtain ⟨m2, hdel⟩ := hok
  have hh : (DeleteArtifactHandler m d p v).2.2 = d := by
    simp only [DeleteArtifactHandler, hdel]
  rw [hh]
  exact ⟨rfl, rfl⟩

/-- Witness for C9: deleting `demo@1.0.0` from `wMeta` with its blob on disk. -/
theorem C9_delete_keeps_blob_witness :
    (SQLiteStore.GetArtifact wMeta "demo" "1.0.0" = some wArt ∧
      SQLiteStore.DeleteArtifact wMeta "demo" "1.0.0" =
        Except.ok ⟨[⟨1, "demo"⟩], [], 2, 2⟩) ∧
    (DeleteArtifactHandler wMeta [("aabbcc", [1, 2, 3, 4, 5])] "demo" "1.0.0").2.2 =
      [("aabbcc", [1, 2, 3, 4, 5])] ∧
    DiskBlobStorage.ExistsBlob
      (DeleteArtifactHandler wMeta [("aabbcc", [1, 2, 3, 4, 5])] "demo" "1.0.0").2.2
      wArt.hash =
      DiskBlobStorage.ExistsBlob [("aabbcc", [1, 2, 3, 4, 5])] wArt.hash :=
  ⟨⟨by decide, by rfl⟩,
   C9_delete_keeps_blob wMeta [("aabbcc", [1, 2, 3, 4, 5])] "demo" "1.0.0" wArt
     (by decide) ⟨⟨[⟨1, "demo"⟩], [], 2, 2⟩, by rfl⟩⟩

/-! ### Exactly-one-row delete (C7) -/

theorem length_filter_not_add {α : Type} (p : α → Bool) (l : List α) :
    (l.filter (fun a => !(p a))).length + (l.filter p).length = l.length := by
  induction l with
  | nil => rfl
  | cons x xs ih =>
      by_cases h : p x <;> simp [h] <;> omega

theorem countP_key_eq_one {α β : Type} [DecidableEq β] (f : α → β) (b : β) :
    ∀ l : List α, (l.map f).Nodup → (∃ a ∈ l, f a = b) →
      l.countP (fun x => decide (f x = b)) = 1 := by
  intro l
  induction l with
  | nil => rintro _ ⟨a, ha, _⟩; exact absurd ha (List.not_mem_nil a)
  | cons x xs ih =>
      intro hnd hex
      rw [List.map_cons, List.nodup_cons] at hnd
      by_cases hfx : f x = b
      · rw [List.countP_cons_of_pos _ _ (by simp [hfx])]
        have h0 : xs.countP (fun y => decide (f y = b)) = 0 := by
          apply List.countP_eq_zero.mpr
          intro y hy
          simp only [decide_eq_true_eq]
          intro hc
          have hmem : f x ∈ List.map f xs := by
            rw [hfx, ← hc]
            exact List.mem_map_of_mem f hy
          exact hnd.1 hmem
        rw [h0]
      · rw [List.countP_cons_of_neg _ _ (by simp [hfx])]
        apply ih hnd.2
        rcases hex with ⟨a, ha, hfa⟩
        cases List.mem_cons.mp ha with
        | inl h => exact absurd (h ▸ hfa) hfx
        | inr h => exact ⟨a, h, hfa⟩

/-- A download whose metadata lookup finds no row is a 404. -/
theorem download_none_404 (m : MetaState) (d : BlobState) (p v : String)
    (h : SQLiteStore.GetArtifact m p v = none) :
    DownloadArtifact m d p v =
      ⟨404, "artifact " ++ p ++ "@" ++ v ++ " not found", []⟩ := by
  simp only [DownloadArtifact, h]

/-- C7: with the `UNIQUE(package_id, version)` constraint in force, deleting an
existing (package, version) removes exactly one artifact row, after which
`get_artifact` is `none` and download returns 404; deleting a non-existing one
fails with `NOT_FOUND`. -/
theorem C7_delete_exactly_one (m : MetaState) (d : BlobState) (p v : String)
    (hwf : (m.artifacts.map fun a => (a.packageId, a.version)).Nodup) :
    (∀ a : Artifact, SQLiteStore.GetArtifact m p v = some a →
      ∃ m2 : MetaState, SQLiteStore.DeleteArtifact m p v = Except.ok m2 ∧
        m2.artifacts.length + 1 = m.artifacts.length ∧
        SQLiteStore.GetArtifact m2 p v = none ∧
        (DownloadArtifact m2 d p v).status = 404) ∧
    (SQLiteStore.GetArtifact m p v = none →
      SQLiteStore.DeleteArtifact m p v = Except.error MetaErr.notFound) := by
  constructor
  · intro a hget
    rw [SQLiteStore.GetArtifact] at hget
    cases hfind : m.packages.find? (fun q => q.name == p) with
    | none => rw [hfind] at hget; exact absurd hget (by simp)
    | some p0 =>
        rw [hfind] at hget
        have hamem : a ∈ m.artifacts := List.mem_of_find?_eq_some hget
        have hapred := List.find?_some hget
        simp only [Bool.and_eq_true, beq_iff_eq] at hapred
        obtain ⟨haid, haver⟩ := hapred
        set kept : List Artifact := m.artifacts.filter
          (fun x => !((some x.packageId == some p0.id) && (x.version == v))) with hkept
        have hcount : m.artifacts.countP
            (fun x => (some x.packageId == some p0.id) && (x.version == v)) = 1 := by
          have h1 : m.artifacts.countP
                (fun x => (some x.packageId == some p0.id) && (x.version == v)) =
              m.artifacts.countP
                (fun x => decide ((fun y : Artifact => (y.packageId, y.version)) x =
                  (p0.id, v))) := by
            apply List.countP_congr
            intro x _
            simp [Prod.ext_iff]
          rw [h1]
          refine countP_key_eq_one (fun y : Artifact => (y.packageId, y.version)) (p0.id, v)
            m.artifacts hwf ⟨a, hamem, ?_⟩
          show (a.packageId, a.version) = (p0.id, v)
          rw [haid, haver]
        have hkeptlen : kept.length + 1 = m.artifacts.length := by
          have hsplit := length_filter_not_add
            (fun x : Artifact => (some x.packageId == some p0.id) && (x.version == v))
            m.artifacts
          rw [List.countP_eq_length_filter] at hcount
          rw [hkept]
          omega
        have hcondF : ¬((kept.length == m.artifacts.length) = true) := by
          rw [beq_iff_eq]
          omega
        have hdeleq : SQLiteStore.DeleteArtifact m p v =
            Except.ok { m with artifacts := kept } := by
          unfold SQLiteStore.DeleteArtifact
          rw [hfind]
          dsimp only [Option.map_some']
          rw [← hkept, if_neg hcondF]
        have hget2 : SQLiteStore.GetArtifact { m with artifacts := kept } p v = none := by
          unfold SQLiteStore.GetArtifact
          dsimp only
          rw [hfind]
          apply List.find?_eq_none.mpr
          intro x hx
          have hxf := (List.mem_filter.mp (hkept ▸ hx)).2
          simp only [Bool.not_eq_true', Bool.and_eq_false_iff] at hxf
          simp only [Bool.and_eq_true, beq_iff_eq, not_and]
          intro h1 h2
          rcases hxf with h3 | h3
          · rw [beq_eq_false_iff_ne] at h3
            exact h3 (by rw [h1])
          · rw [beq_eq_false_iff_ne] at h3
            exact h3 h2
        refine ⟨{ m with artifacts := kept }, hdeleq, hkeptlen, hget2, ?_⟩
        rw [download_none_404 _ d p v hget2]
  · intro hget
    rw [SQLiteStore.GetArtifact] at hget
    cases hfind : m.packages.find? (fun q => q.name == p) with
    | none =>
        have hkeq : m.artifacts.filter
            (fun x => !((some x.packageId == (none : Option Nat)) && (x.version == v))) =
            m.artifacts := by
          apply List.filter_eq_self.mpr
          intro x _
          simp
        unfold SQLiteStore.DeleteArtifact
        rw [hfind]
        dsimp only [Option.map_none']
        rw [hkeq, if_pos (by simp)]
    | some p0 =>
        rw [hfind] at hget
        have hall := List.find?_eq_none.mp hget
        have hkeq : m.artifacts.filter
            (fun x => !((some x.packageId == some p0.id) && (x.version == v))) =
            m.artifacts := by
          apply List.filter_eq_self.mpr
          intro x hx
          have hnx := hall x hx
          simp only [Bool.and_eq_true, beq_iff_eq, not_and] at hnx
          simp only [Bool.not_eq_true', Bool.and_eq_false_iff]
          by_cases h1 : x.packageId = p0.id
          · right
            rw [beq_eq_false_iff_ne]
            exact hnx h1
          · left
            rw [beq_eq_false_iff_ne]
            simp [h1]
        unfold SQLiteStore.DeleteArtifact
        rw [hfind]
        dsimp only [Option.map_some']
        rw [hkeq, if_pos (by simp)]

/-- Witness for C7: deleting `demo@1.0.0` from `wMeta` (uniqueness holds), and
deleting from an empty catalog. -/
theorem C7_delete_exactly_one_witness :
    ((wMeta.artifacts.map fun a => (a.packageId, a.version)).Nodup ∧
      SQLiteStore.GetArtifact wMeta "demo" "1.0.0" = some wArt ∧
      SQLiteStore.GetArtifact (⟨[], [], 1, 1⟩ : MetaState) "x" "1" = none) ∧
    (∃ m2 : MetaState, SQLiteStore.DeleteArtifact wMeta "demo" "1.0.0" = Except.ok m2 ∧
      m2.artifacts.length + 1 = wMeta.artifacts.length ∧
      SQLiteStore.GetArtifact m2 "demo" "1.0.0" = none ∧
      (DownloadArtifact m2 [] "demo" "1.0.0").status = 404) ∧
    SQLiteStore.DeleteArtifact (⟨[], [], 1, 1⟩ : MetaState) "x" "1" =
      Except.error MetaErr.notFound :=
  ⟨⟨by decide, by decide, by decide⟩,
   (C7_delete_exactly_one wMeta [] "demo" "1.0.0" (by decide)).1 wArt (by decide),
   (C7_delete_exactly_one (⟨[], [], 1, 1⟩ : MetaState) [] "x" "1" (by decide)).2 (by decide)⟩

/-! ### Garbage-collection sweep lemmas (C2, C3) -/

theorem find?_filter_of_imp {α : Type} (l : List α) (p q : α → Bool)
    (him : ∀ x, p x = true → q x = true) :
    (l.filter q).find? p = l.find? p := by
  induction l with
  | nil => rfl
  | cons x xs ih =>
      by_cases hq : q x
      · rw [List.filter_cons_of_pos hq]
        by_cases hp : p x
        · rw [List.find?_cons_of_pos _ hp, List.find?_cons_of_pos _ hp]
        · rw [List.find?_cons_of_neg _ hp, List.find?_cons_of_neg _ hp, ih]
      · rw [List.filter_cons_of_neg hq]
        have hp : ¬p x = true := fun hpx => hq (him x hpx)
        rw [List.find?_cons_of_neg _ hp, ih]

theorem statSize_delete_self (d : BlobState) (h : String) :
    statSize (DiskBlobStorage.Delete d h) h = none := by
  have hnone : (d.filter (fun e => !(e.1 == h))).find? (fun e => e.1 == h) = none := by
    apply List.find?_eq_none.mpr
    intro e he
    have hne := (List.mem_filter.mp he).2
    simp only [Bool.not_eq_true'] at hne
    simp [hne]
  simp [statSize, DiskBlobStorage.Delete, hnone]

theorem statSize_delete_other (d : BlobState) (h h2 : String) (hne : h2 ≠ h) :
    statSize (DiskBlobStorage.Delete d h) h2 = statSize d h2 := by
  unfold statSize DiskBlobStorage.Delete
  rw [find?_filter_of_imp]
  intro e he
  simp only [beq_iff_eq] at he
  simp [he, hne]

theorem gcStep_of_ref (referenced : List String) (fails : String → Bool) (st : GCState)
    (b : String) (hr : referenced.contains b = true) :
    gcStep referenced fails st b = st := by
  unfold gcStep
  rw [if_pos hr]

theorem gcStep_disk_other (referenced : List String) (fails : String → Bool) (st : GCState)
    (b h2 : String) (hne : h2 ≠ b) :
    statSize (gcStep referenced fails st b).disk h2 = statSize st.disk h2 := by
  unfold gcStep
  by_cases hr : referenced.contains b = true
  · rw [if_pos hr]
  · rw [if_neg hr]
    cases hstat : statSize st.disk b <;>
      by_cases hf : fails b <;>
        simp [hstat, hf, statSize_delete_other _ _ _ hne]

theorem gcStep_disk_deleted (referenced : List String) (fails : String → Bool) (st : GCState)
    (b : String) (hr : ¬referenced.contains b = true) (hf : fails b = false) :
    statSize (gcStep referenced fails st b).disk b = none := by
  unfold gcStep
  rw [if_neg hr]
  cases hstat : statSize st.disk b <;> simp [hstat, hf, statSize_delete_self]

theorem gcStep_disk_of_fails (referenced : List String) (fails : String → Bool) (st : GCState)
    (b : String) (hf : fails b = true) :
    (gcStep referenced fails st b).disk = st.disk := by
  unfold gcStep
  by_cases hr : referenced.contains b = true
  · rw [if_pos hr]
  · rw [if_neg hr]
    cases hstat : statSize st.disk b <;> simp [hstat, hf]

theorem gcStep_calls_mono (referenced : List String) (fails : String → Bool) (st : GCState)
    (b c : String) (hc : c ∈ st.deleteCalls) :
    c ∈ (gcStep referenced fails st b).deleteCalls := by
  unfold gcStep
  by_cases hr : referenced.contains b = true
  · rw [if_pos hr]; exact hc
  · rw [if_neg hr]
    cases hstat : statSize st.disk b <;> by_cases hf : fails b <;>
      simp [hstat, hf] <;> exact Or.inl hc

theorem gcStep_calls_self (referenced : List String) (fails : String → Bool) (st : GCState)
    (b : String) (hr : ¬referenced.contains b = true) :
    b ∈ (gcStep referenced fails st b).deleteCalls := by
  unfold gcStep
  rw [if_neg hr]
  cases hstat : statSize st.disk b <;> by_cases hf : fails b <;> simp [hstat, hf]

theorem gcStep_freed_mono (referenced : List String) (fails : String → Bool) (st : GCState)
    (b : String) : st.freed ≤ (gcStep referenced fails st b).freed := by
  unfold gcStep
  by_cases hr : referenced.contains b = true
  · rw [if_pos hr]
  · rw [if_neg hr]
    cases hstat : statSize st.disk b <;> by_cases hf : fails b <;>
      simp [hstat, hf]

theorem gcStep_freed_add (referenced : List String) (fails : String → Bool) (st : GCState)
    (b : String) (sz : Nat) (hr : ¬referenced.contains b = true)
    (hstat : statSize st.disk b = some sz) :
    st.freed + sz ≤ (gcStep referenced fails st b).freed := by
  unfold gcStep
  rw [if_neg hr]
  by_cases hf : fails b <;> simp [hstat, hf]

theorem gcStep_deleted_eq (referenced : List String) (fails : String → Bool) (st : GCState)
    (b : String)
    (hinv : st.deleted = (st.deleteCalls.filter (fun x => !(fails x))).length) :
    (gcStep referenced fails st b).deleted =
      ((gcStep referenced fails st b).deleteCalls.filter (fun x => !(fails x))).length := by
  unfold gcStep
  by_cases hr : referenced.contains b = true
  · rw [if_pos hr]; exact hinv
  · rw [if_neg hr]
    cases hstat : statSize st.disk b <;> by_cases hf : fails b <;>
      simp [hstat, hf, List.filter_append, hinv]

theorem gcFold_disk_preserved (referenced : List String) (fails : String → Bool) :
    ∀ bs : List String, ∀ st : GCState, ∀ h : String, referenced.contains h = true →
      statSize ((bs.foldl (gcStep referenced fails) st).disk) h = statSize st.disk h := by
  intro bs
  induction bs with
  | nil => intro st h _; rfl
  | cons b bs ih =>
      intro st h hr
      rw [List.foldl_cons, ih _ h hr]
      by_cases hrb : referenced.contains b = true
      · rw [gcStep_of_ref _ _ _ _ hrb]
      · have hne : h ≠ b := fun he => hrb (he ▸ hr)
        exact gcStep_disk_other _ _ _ _ _ hne

theorem gcFold_calls_mono (referenced : List String) (fails : String → Bool) :
    ∀ bs : List String, ∀ st : GCState, ∀ c : String, c ∈ st.deleteCalls →
      c ∈ (bs.foldl (gcStep referenced fails) st).deleteCalls := by
  intro bs
  induction bs with
  | nil => intro st c hc; exact hc
  | cons b bs ih =>
      intro st c hc
      rw [List.foldl_cons]
      exact ih _ c (gcStep_calls_mono _ _ _ _ _ hc)

theorem gcFold_deletes_called (referenced : List String) (fails : String → Bool) :
    ∀ bs : List String, ∀ st : GCState, ∀ h : String, h ∈ bs →
      ¬referenced.contains h = true →
      h ∈ (bs.foldl (gcStep referenced fails) st).deleteCalls := by
  intro bs
  induction bs with
  | nil => intro st h hmem _; exact absurd hmem (List.not_mem_nil h)
  | cons b bs ih =>
      intro st h hmem hr
      rw [List.foldl_cons]
      rcases List.mem_cons.mp hmem with rfl | hmem2
      · exact gcFold_calls_mono _ _ _ _ _ (gcStep_calls_self _ _ _ _ hr)
      · exact ih _ h hmem2 hr

theorem gcFold_disk_none (referenced : List String) (fails : String → Bool) :
    ∀ bs : List String, ∀ st : GCState, ∀ h : String, statSize st.disk h = none →
      statSize ((bs.foldl (gcStep referenced fails) st).disk) h = none := by
  intro bs
  induction bs with
  | nil => intro st h hn; exact hn
  | cons b bs ih =>
      intro st h hn
      rw [List.foldl_cons]
      apply ih
      by_cases hne : h = b
      · subst hne
        by_cases hrb : referenced.contains h = true
        · rw [gcStep_of_ref _ _ _ _ hrb]; exact hn
        · by_cases hf : fails h
          · rw [gcStep_disk_of_fails _ _ _ _ hf]; exact hn
          · exact gcStep_disk_deleted _ _ _ _ hrb (by simpa using hf)
      · rw [gcStep_disk_other _ _ _ _ _ hne]; exact hn

theorem gcFold_removed (referenced : List String) (fails : String → Bool) :
    ∀ bs : List String, ∀ st : GCState, ∀ h : String, h ∈ bs →
      ¬referenced.contains h = true → fails h = false →
      statSize ((bs.foldl (gcStep referenced fails) st).disk) h = none := by
  intro bs
  induction bs with
  | nil => intro st h hmem _ _; exact absurd hmem (List.not_mem_nil h)
  | cons b bs ih =>
      intro st h hmem hr hf
      rw [List.foldl_cons]
      by_cases hne : b = h
      · subst hne
        exact gcFold_disk_none _ _ _ _ _ (gcStep_disk_deleted _ _ _ _ hr hf)
      · rcases List.mem_cons.mp hmem with rfl | hmem2
        · exact absurd rfl hne
        · exact ih _ h hmem2 hr hf

theorem gcFold_freed_mono (referenced : List String) (fails : String → Bool) :
    ∀ bs : List String, ∀ st : GCState,
      st.freed ≤ (bs.foldl (gcStep referenced fails) st).freed := by
  intro bs
  induction bs with
  | nil => intro st; exact le_refl _
  | cons b bs ih =>
      intro st
      rw [List.foldl_cons]
      exact le_trans (gcStep_freed_mono _ _ _ _) (ih _)

theorem gcFold_freed_covers (referenced : List String) (fails : String → Bool) :
    ∀ bs : List String, ∀ st : GCState, ∀ h : String, ∀ sz : Nat, h ∈ bs →
      ¬referenced.contains h = true → statSize st.disk h = some sz →
      st.freed + sz ≤ (bs.foldl (gcStep referenced fails) st).freed := by
  intro bs
  induction bs with
  | nil => intro st h sz hmem _ _; exact absurd hmem (List.not_mem_nil h)
  | cons b bs ih =>
      intro st h sz hmem hr hstat
      rw [List.foldl_cons]
      by_cases hne : b = h
      · subst hne
        exact le_trans (gcStep_freed_add _ _ _ _ _ hr hstat) (gcFold_freed_mono _ _ _ _)
      · rcases List.mem_cons.mp hmem with rfl | hmem2
        · exact absurd rfl hne
        · have hstat2 : statSize ((gcStep referenced fails st b).disk) h = some sz := by
            rw [gcStep_disk_other _ _ _ _ _ (fun he => hne he.symm)]
            exact hstat
          exact le_trans (Nat.add_le_add_right (gcStep_freed_mono _ _ _ _) sz)
            (ih _ h sz hmem2 hr hstat2)

theorem gcFold_disk_failed (referenced : List String) (fails : String → Bool) :
    ∀ bs : List String, ∀ st : GCState, ∀ h : String, fails h = true →
      statSize ((bs.foldl (gcStep referenced fails) st).disk) h = statSize st.disk h := by
  intro bs
  induction bs with
  | nil => intro st h _; rfl
  | cons b bs ih =>
      intro st h hf
      rw [List.foldl_cons, ih _ h hf]
      by_cases hne : h = b
      · subst hne
        rw [gcStep_disk_of_fails _ _ _ _ hf]
      · exact gcStep_disk_other _ _ _ _ _ hne

theorem gcFold_deleted_eq (referenced : List String) (fails : String → Bool) :
    ∀ bs : List String, ∀ st : GCState,
      st.deleted = (st.deleteCalls.filter (fun x => !(fails x))).length →
      (bs.foldl (gcStep referenced fails) st).deleted =
        (((bs.foldl (gcStep referenced fails) st).deleteCalls).filter
          (fun x => !(fails x))).length := by
  intro bs
  induction bs with
  | nil => intro st hinv; exact hinv
  | cons b bs ih =>
      intro st hinv
      rw [List.foldl_cons]
      exact ih _ (gcStep_deleted_eq _ _ _ _ hinv)

theorem existsBlob_eq_false_iff (d : BlobState) (h : String) :
    DiskBlobStorage.ExistsBlob d h = false ↔ statSize d h = none := by
  unfold DiskBlobStorage.ExistsBlob DiskBlobStorage.pathExists statSize
  cases hf : d.find? (fun e => e.1 == h) <;> simp [hf]

/-- C2: GC never deletes a referenced hash (its disk entry is untouched); every
on-disk hash outside the referenced set is passed to `blob_store.delete`; and a
blob whose hash no artifact references (e.g. stored then deleted), present on
disk with a succeeding delete, is gone after GC with its size counted in
`freed_bytes`. -/
theorem C2_garbage_collect (m : MetaState) (d : BlobState) (fails : String → Bool) :
    (∀ h : String, h ∈ SQLiteStore.ReferencedHashes m →
        statSize (GarbageCollect m d fails).disk h = statSize d h) ∧
    (∀ h : String, h ∈ d.map Prod.fst → h ∉ SQLiteStore.ReferencedHashes m →
        h ∈ (GarbageCollect m d fails).deleteCalls) ∧
    (∀ h : String, ∀ sz : Nat, h ∈ d.map Prod.fst →
        (∀ a ∈ m.artifacts, a.hash ≠ h) → fails h = false →
        statSize d h = some sz →
        DiskBlobStorage.ExistsBlob (GarbageCollect m d fails).disk h = false ∧
        sz ≤ (GarbageCollect m d fails).freed) := by
  have hcm : ∀ h : String, (SQLiteStore.ReferencedHashes m).contains h = true ↔
      h ∈ SQLiteStore.ReferencedHashes m := by
    intro h
    exact List.elem_iff
  refine ⟨?_, ?_, ?_⟩
  · intro h hmem
    exact gcFold_disk_preserved _ _ _ _ h ((hcm h).mpr hmem)
  · intro h hd hnmem
    exact gcFold_deletes_called _ _ _ _ h hd (fun hc => hnmem ((hcm h).mp hc))
  · intro h sz hd hnoref hf hstat
    have hnmem : ¬(SQLiteStore.ReferencedHashes m).contains h = true := by
      intro hc
      have hmem := (hcm h).mp hc
      rw [SQLiteStore.ReferencedHashes, List.mem_dedup] at hmem
      obtain ⟨a, ha, hha⟩ := List.mem_map.mp hmem
      exact hnoref a ha hha
    constructor
    · rw [existsBlob_eq_false_iff]
      exact gcFold_removed _ _ _ _ h hd hnmem hf
    · have hcov := gcFold_freed_covers (SQLiteStore.ReferencedHashes m) fails
        (d.map Prod.fst) ⟨0, 0, d, []⟩ h sz hd hnmem hstat
      simpa using hcov

/-- A catalog referencing hash `bb`, a disk with unreferenced `aa` and
referenced `bb`, and an always-succeeding delete. -/
def gcMeta : MetaState := ⟨[⟨1, "demo"⟩], [⟨1, 1, "1.0.0", "bb", 2, 0⟩], 2, 2⟩

def gcDisk : BlobState := [("aa", [1, 2, 3]), ("bb", [4, 5])]

/-- Witness for C2 on `gcMeta`/`gcDisk` with no delete failures. -/
theorem C2_garbage_collect_witness :
    (("bb" ∈ SQLiteStore.ReferencedHashes gcMeta) ∧
      ("aa" ∈ gcDisk.map Prod.fst) ∧ ("aa" ∉ SQLiteStore.ReferencedHashes gcMeta) ∧
      (∀ a ∈ gcMeta.artifacts, a.hash ≠ "aa") ∧
      statSize gcDisk "aa" = some 3) ∧
    statSize (GarbageCollect gcMeta gcDisk (fun _ => false)).disk "bb" =
      statSize gcDisk "bb" ∧
    "aa" ∈ (GarbageCollect gcMeta gcDisk (fun _ => false)).deleteCalls ∧
    (DiskBlobStorage.ExistsBlob (GarbageCollect gcMeta gcDisk (fun _ => false)).disk "aa" =
        false ∧
      3 ≤ (GarbageCollect gcMeta gcDisk (fun _ => false)).freed) :=
  ⟨⟨by decide, by decide, by decide, by decide, by decide⟩,
   (C2_garbage_collect gcMeta gcDisk (fun _ => false)).1 "bb" (by decide),
   (C2_garbage_collect gcMeta gcDisk (fun _ => false)).2.1 "aa" (by decide) (by decide),
   (C2_garbage_collect gcMeta gcDisk (fun _ => false)).2.2 "aa" 3 (by decide) (by decide)
     (by decide) (by decide)⟩

/-- C3 (amended): GC never aborts — every unreferenced on-disk hash gets a
delete attempt even if earlier deletes failed; a blob whose delete fails is not
counted in `deleted_blobs` (the count equals the successful delete calls) and
stays on disk, but its size, statted before the delete attempt, IS still added
to `freed_bytes`. (The claim says it contributes to neither; see the
counterexample.) -/
theorem C3_gc_skip_failed (m : MetaState) (d : BlobState) (fails : String → Bool) :
    (∀ h : String, h ∈ d.map Prod.fst → h ∉ SQLiteStore.ReferencedHashes m →
        h ∈ (GarbageCollect m d fails).deleteCalls) ∧
    (GarbageCollect m d fails).deleted =
      (((GarbageCollect m d fails).deleteCalls).filter (fun x => !(fails x))).length ∧
    (∀ h : String, ∀ sz : Nat, h ∈ d.map Prod.fst →
        h ∉ SQLiteStore.ReferencedHashes m → fails h = true →
        statSize d h = some sz →
        statSize (GarbageCollect m d fails).disk h = statSize d h ∧
        sz ≤ (GarbageCollect m d fails).freed) := by
  have hcm : ∀ h : String, (SQLiteStore.ReferencedHashes m).contains h = true ↔
      h ∈ SQLiteStore.ReferencedHashes m := by
    intro h
    exact List.elem_iff
  refine ⟨?_, ?_, ?_⟩
  · intro h hd hnmem
    exact gcFold_deletes_called _ _ _ _ h hd (fun hc => hnmem ((hcm h).mp hc))
  · exact gcFold_deleted_eq _ _ _ _ rfl
  · intro h sz hd hnmem hf hstat
    constructor
    · exact gcFold_disk_failed _ _ _ _ h hf
    · have hcov := gcFold_freed_covers (SQLiteStore.ReferencedHashes m) fails
        (d.map Prod.fst) ⟨0, 0, d, []⟩ h sz hd (fun hc => hnmem ((hcm h).mp hc)) hstat
      simpa using hcov

/-- A delete that always fails. -/
def failAll : String → Bool := fun _ => true

/-- Witness for C3: one unreferenced blob of 5 bytes whose delete fails. -/
theorem C3_gc_skip_failed_witness :
    (("aa" ∈ ([("aa", [1, 2, 3, 4, 5])] : BlobState).map Prod.fst) ∧
      ("aa" ∉ SQLiteStore.ReferencedHashes ⟨[], [], 1, 1⟩) ∧
      failAll "aa" = true ∧
      statSize [("aa", [1, 2, 3, 4, 5])] "aa" = some 5) ∧
    "aa" ∈ (GarbageCollect ⟨[], [], 1, 1⟩ [("aa", [1, 2, 3, 4, 5])] failAll).deleteCalls ∧
    (GarbageCollect ⟨[], [], 1, 1⟩ [("aa", [1, 2, 3, 4, 5])] failAll).deleted =
      (((GarbageCollect ⟨[], [], 1, 1⟩ [("aa", [1, 2, 3, 4, 5])] failAll).deleteCalls).filter
        (fun x => !(failAll x))).length ∧
    (statSize (GarbageCollect ⟨[], [], 1, 1⟩ [("aa", [1, 2, 3, 4, 5])] failAll).disk "aa" =
        statSize [("aa", [1, 2, 3, 4, 5])] "aa" ∧
      5 ≤ (GarbageCollect ⟨[], [], 1, 1⟩ [("aa", [1, 2, 3, 4, 5])] failAll).freed) :=
  ⟨⟨by decide, by decide, by decide, by decide⟩,
   (C3_gc_skip_failed ⟨[], [], 1, 1⟩ [("aa", [1, 2, 3, 4, 5])] failAll).1 "aa"
     (by decide) (by decide),
   (C3_gc_skip_failed ⟨[], [], 1, 1⟩ [("aa", [1, 2, 3, 4, 5])] failAll).2.1,
   (C3_gc_skip_failed ⟨[], [], 1, 1⟩ [("aa", [1, 2, 3, 4, 5])] failAll).2.2 "aa" 5
     (by decide) (by decide) (by decide) (by decide)⟩

/-- C3 counterexample: with one unreferenced 5-byte blob whose delete fails,
GC reports `deleted_blobs = 0` but `freed_bytes = 5`: the failed delete is
excluded from the count yet its size still lands in `freed_bytes`, refuting
"contributes neither to deleted_blobs nor to freed_bytes". -/
theorem C3_gc_counterexample :
    (GarbageCollect ⟨[], [], 1, 1⟩ [("aa", [1, 2, 3, 4, 5])] failAll).deleted = 0 ∧
    (GarbageCollect ⟨[], [], 1, 1⟩ [("aa", [1, 2, 3, 4, 5])] failAll).freed = 5 :=
  ⟨by decide, by decide⟩

/-! ### Per-key upload lock table (C10)

Models `Handler.lockArtifactUpload` / `artifactLock`: the map from key to
refcount (`refs`, a Go `int`), with all map mutations serialized under
`locksMu`. A trace interleaves acquire and release events; validity says no
key is released more often than acquired in any prefix. -/

inductive LockEvent where
  | acquire (key : String)
  | release (key : String)
deriving Repr, DecidableEq

/-- The `uploadLocks` map: `none` means no entry for the key. -/
abbrev LockTable := String → Option Int

/-- Acquire: find-or-insert the entry (a fresh entry has `refs = 0`), then
increment `refs` — all under the outer mutex. -/
def lockAcquire (t : LockTable) (k : String) : LockTable :=
  fun x => if x = k then some ((t k).getD 0 + 1) else t x

/-- Release: decrement `refs`; when it reaches zero, delete the map entry. -/
def lockRelease (t : LockTable) (k : String) : LockTable :=
  fun x =>
    if x = k then
      match t k with
      | some r => if r - 1 = 0 then none else some (r - 1)
      | none => none
    else t x

def lockStep (t : LockTable) (e : LockEvent) : LockTable :=
  match e with
  | .acquire k => lockAcquire t k
  | .release k => lockRelease t k

def runLocks (tr : List LockEvent) : LockTable :=
  tr.foldl lockStep (fun _ => none)

def countAcq (tr : List LockEvent) (k : String) : Nat :=
  tr.countP (fun e => e == LockEvent.acquire k)

def countRel (tr : List LockEvent) (k : String) : Nat :=
  tr.countP (fun e => e == LockEvent.release k)

/-- Each release matches a prior unmatched acquire of its key. -/
def ValidTrace (tr : List LockEvent) : Prop :=
  ∀ n : Nat, ∀ k : String, countRel (tr.take n) k ≤ countAcq (tr.take n) k

/-- C10: after any valid sequence of acquires and releases, the lock table has
an entry for a key exactly when some holder or waiter is outstanding, and that
entry's refcount equals the number of outstanding holders and waiters; in
particular after the last release of a key its entry is gone. -/
theorem C10_lock_refcount :
    ∀ tr : List LockEvent, ValidTrace tr → ∀ k : String,
      runLocks tr k =
        if (countAcq tr k : Int) - countRel tr k = 0 then none
        else some ((countAcq tr k : Int) - countRel tr k) := by
  intro tr
  induction tr using List.reverseRecOn with
  | nil =>
      intro _ k
      show (none : Option Int) = _
      rw [if_pos (by simp [countAcq, countRel])]
  | append_singleton tr e ih =>
      intro hv k
      have hv2 : ValidTrace tr := by
        intro n k2
        by_cases hn : n ≤ tr.length
        · have h3 := hv n k2
          rwa [List.take_append_of_le_length hn] at h3
        · have h3 := hv tr.length k2
          rw [List.take_append_of_le_length (le_refl _), List.take_length] at h3
          rw [List.take_of_length_le (by omega)]
          exact h3
      have ihk := ih hv2
      have hout : countRel tr k ≤ countAcq tr k := by
        have h3 := hv2 tr.length k
        rwa [List.take_length] at h3
      have hrun : runLocks (tr ++ [e]) = lockStep (runLocks tr) e := by
        unfold runLocks
        rw [List.foldl_append]
        rfl
      rw [hrun]
      cases e with
      | acquire k0 =>
          have hcr : countRel (tr ++ [LockEvent.acquire k0]) k = countRel tr k := by
            unfold countRel
            rw [List.countP_append]
            simp
          by_cases hk : k = k0
          · subst hk
            have hca : countAcq (tr ++ [LockEvent.acquire k]) k = countAcq tr k + 1 := by
              unfold countAcq
              rw [List.countP_append]
              simp
            rw [hca, hcr]
            show lockAcquire (runLocks tr) k k = _
            unfold lockAcquire
            rw [if_pos rfl, ihk k]
            by_cases hz : (countAcq tr k : Int) - countRel tr k = 0
            · rw [if_pos hz, if_neg (by push_cast; omega)]
              simp only [Option.getD_none]
              congr 1
              push_cast at hz ⊢
              omega
            · rw [if_neg hz, if_neg (by push_cast; omega)]
              simp only [Option.getD_some]
              congr 1
              push_cast
              omega
          · have hk0 : ¬k0 = k := fun h => hk h.symm
            have hca : countAcq (tr ++ [LockEvent.acquire k0]) k = countAcq tr k := by
              unfold countAcq
              rw [List.countP_append]
              simp [hk0]
            rw [hca, hcr]
            show lockAcquire (runLocks tr) k0 k = _
            unfold lockAcquire
            rw [if_neg hk, ihk k]
      | release k0 =>
          have hca : countAcq (tr ++ [LockEvent.release k0]) k = countAcq tr k := by
            unfold countAcq
            rw [List.countP_append]
            simp
          by_cases hk : k = k0
          · subst hk
            have hcr : countRel (tr ++ [LockEvent.release k]) k = countRel tr k + 1 := by
              unfold countRel
              rw [List.countP_append]
              simp
            have hvfull := hv (tr.length + 1) k
            rw [List.take_of_length_le (by simp), hca, hcr] at hvfull
            rw [hca, hcr]
            show lockRelease (runLocks tr) k k = _
            unfold lockRelease
            rw [if_pos rfl, ihk k]
            rw [if_neg (by omega)]
            show (if ((countAcq tr k : Int) - countRel tr k) - 1 = 0 then none
                  else some (((countAcq tr k : Int) - countRel tr k) - 1)) = _
            by_cases hz : ((countAcq tr k : Int) - countRel tr k) - 1 = 0
            · rw [if_pos hz, if_pos (by push_cast at hz ⊢; omega)]
            · rw [if_neg hz, if_neg (by push_cast at hz ⊢; omega)]
              congr 1
              push_cast
              omega
          · have hk0 : ¬k0 = k := fun h => hk h.symm
            have hcr : countRel (tr ++ [LockEvent.release k0]) k = countRel tr k := by
              unfold countRel
              rw [List.countP_append]
              simp [hk0]
            rw [hca, hcr]
            show lockRelease (runLocks tr) k0 k = _
            unfold lockRelease
            rw [if_neg hk, ihk k]

/-- A valid trace: two concurrent uploads of the same key acquire, then both
release. -/
def tr0 : List LockEvent :=
  [.acquire "a@1", .acquire "a@1", .release "a@1", .release "a@1"]

theorem tr0_valid : ValidTrace tr0 := by
  intro n k
  by_cases hk : k = "a@1"
  · subst hk
    rcases n with _ | _ | _ | _ | n
    · decide
    · decide
    · decide
    · decide
    · rw [List.take_of_length_le (by simp [tr0])]
      decide
  · have hr : countRel (tr0.take n) k = 0 := by
      apply List.countP_eq_zero.mpr
      intro e he
      have hmem : e ∈ tr0 := List.take_subset n tr0 he
      simp only [tr0, List.mem_cons, List.not_mem_nil, or_false] at hmem
      rcases hmem with rfl | rfl | rfl | rfl <;> simp [beq_iff_eq] <;>
        intro hcon <;> exact hk hcon.symm
    rw [hr]
    exact Nat.zero_le _

/-- Witness for C10 on the trace `tr0`: validity holds and the invariant gives
the refcounts; in particular the entry is gone after the final release. -/
theorem C10_lock_refcount_witness :
    ValidTrace tr0 ∧
    runLocks tr0 "a@1" =
      (if (countAcq tr0 "a@1" : Int) - countRel tr0 "a@1" = 0 then none
       else some ((countAcq tr0 "a@1" : Int) - countRel tr0 "a@1")) ∧
    runLocks tr0 "a@1" = none :=
  ⟨tr0_valid, C10_lock_refcount tr0 tr0_valid "a@1", by decide⟩

end Foundry
